import Mathlib

/-!
# Credential manager API: authorization and membership core

A shallow embedding of the request handlers of the credential manager
(`src/controllers/*.js`) over an in-memory image of the two MongoDB
collections they read and write (`users` and `org_units`).

* A handler `exports.f = async (req, res) => ...` becomes a function from the
  store before the call, the result of `jwt.verify` on the bearer token and
  the request body, to the reply sent with `res` and the store after the call.
* Every `res.status(..).send(..)` site of a handler is one constructor of
  `Outcome`.
* The MongoDB operations the handlers issue (`findOne`, the `$unwind` /
  `$match` aggregation pipelines, `updateOne` with `$push` on `divisions.$`
  and `$set` on `divisions.$[].accounts.$[acc]`) are modelled by the list
  functions of the `Mongo` section, following the documented semantics of
  these operators.
* Request fields are strings and ids are `ObjectId`s, as the schema casts them.
  A caller whose id is not in the `users` collection makes `userResult.role`
  throw, which the handlers catch and answer with status 500.
* The store calls themselves are taken to complete; the handlers have no other
  state.
* A `user_id` sent in a request body is an `Option ObjectId`: `none` stands for
  a value that does not cast to an `ObjectId`, which makes the store call throw.
* The `$group` stage is modelled with its groups in the order of their first
  document; the properties stated about the listings do not depend on it.
* Lower-casing and the bcrypt calls are parameters (`Env`); the salt drawn by
  `bcrypt.genSalt` and the `_id` generated for a created user are arguments
  of `registerUser`.
-/

namespace CredentialManager

/-! ## Data model -/

/-- Identifier of a stored document (a MongoDB `ObjectId`). -/
abbrev ObjectId := Nat

/-- Document of the `users` collection (`src/models/User.js`). -/
structure User where
  _id : ObjectId
  username : String
  password : String
  role : String
  deriving DecidableEq, Repr

/-- Modelled from the spec: `models/OrganisationalUnit.js` is not among the
sources; a credential is the triple `{name, username, password}` that the
handlers read and write. -/
structure Credential where
  name : String
  username : String
  password : String
  deriving DecidableEq, Repr

/-- Modelled from the spec: `models/OrganisationalUnit.js` is not among the
sources; a division is `{name, users, accounts}`, with `users` the stored
array of user ids and `accounts` the stored array of credentials. -/
structure Division where
  name : String
  users : List ObjectId
  accounts : List Credential
  deriving DecidableEq, Repr

/-- Modelled from the spec: `models/OrganisationalUnit.js` is not among the
sources; an organisational unit is `{_id, name, divisions}`. -/
structure OrgUnit where
  _id : ObjectId
  name : String
  divisions : List Division
  deriving DecidableEq, Repr

/-- The persistent store: the `users` collection and the organisational-unit
collection, each in natural (insertion) order. -/
structure Store where
  users : List User
  orgUnits : List OrgUnit
  deriving DecidableEq, Repr

/-- The payload recovered by `jwt.verify` from a bearer token. -/
structure Assertion where
  _id : ObjectId
  username : String
  role : String
  deriving DecidableEq, Repr

/-- The replies of `addCredential` and `updateCredential`, one constructor per
`res.send` site. -/
inductive Outcome where
  /-- Status 200 with a `message`. -/
  | success
  /-- Status 401, `Bad JWT!`. -/
  | badAssertion
  /-- Status 403, the stored role does not permit the operation. -/
  | forbiddenRole
  /-- Status 403, the caller is not part of the division. -/
  | forbiddenMembership
  /-- Status 403, the credential already exists in the division. -/
  | duplicateCredential
  /-- Status 403, a new credential value is blank. -/
  | emptyField
  /-- Status 403, `Nothing was updated`. -/
  | nothingUpdated
  /-- Status 500, an exception was caught around the store calls. -/
  | storeUnavailable
  deriving DecidableEq, Repr

/-- HTTP status code sent with each reply. -/
def Outcome.status : Outcome → Nat
  | .success => 200
  | .badAssertion => 401
  | .storeUnavailable => 500
  | _ => 403

/-- The spec's `Forbidden` outcome: role or membership insufficient. -/
def Outcome.isForbidden : Outcome → Bool
  | .forbiddenRole => true
  | .forbiddenMembership => true
  | _ => false

/-! ## MongoDB operations issued by the handlers -/

section Mongo

/-- Query `User.findOne({_id: userId}, {password: false})`: the first user document
with the given id, or `none` (JavaScript `null`). -/
def findOne (users : List User) (userId : ObjectId) : Option User :=
  users.find? (fun u => u._id == userId)

/-- A document after the two `$unwind` stages: one organisational unit, one of
its divisions, one of that division's users. -/
structure UnwoundDoc where
  _id : ObjectId
  name : String
  divisionName : String
  divisionUser : ObjectId
  divisionAccounts : List Credential
  deriving DecidableEq, Repr

/-- Stages `$unwind: {path: '$divisions'}` then `$unwind: {path: '$divisions.users'}`
(`preserveNullAndEmptyArrays: false`): one document per organisational unit,
division and user entry, in stored order. -/
def unwind (orgUnits : List OrgUnit) : List UnwoundDoc :=
  orgUnits.flatMap fun ou =>
    ou.divisions.flatMap fun d =>
      d.users.map fun u =>
        { _id := ou._id, name := ou.name, divisionName := d.name,
          divisionUser := u, divisionAccounts := d.accounts }

/-- The membership pipeline of `addCredential` and `updateCredential`:
`$unwind`, `$unwind`, then
`$match: {'divisions.users': userId, name: orgUnit, 'divisions.name': division}`
(the `$project` stage keeps every field modelled here). -/
def aggregateMember (orgUnits : List OrgUnit) (userId : ObjectId)
    (orgUnit division : String) : List UnwoundDoc :=
  (unwind orgUnits).filter fun doc =>
    doc.divisionUser == userId && doc.name == orgUnit && doc.divisionName == division

/-- Replace the first element satisfying `p` by its image under `f`: the
document selection of `updateOne`. -/
def updateFirst {α : Type} (p : α → Bool) (f : α → α) : List α → List α
  | [] => []
  | x :: xs => if p x then f x :: xs else x :: updateFirst p f xs

/-- Query filter `{name: orgUnit, 'divisions.name': division}`. -/
def matchesDivision (orgUnit division : String) (ou : OrgUnit) : Bool :=
  ou.name == orgUnit && ou.divisions.any fun d => d.name == division

/-- Update `$push: {'divisions.$.accounts': account}` on one document: `$` is the
first element of `divisions` matched by the query filter. -/
def pushAccount (division : String) (account : Credential) (ou : OrgUnit) : OrgUnit :=
  let push := fun (d : Division) => { d with accounts := d.accounts ++ [account] }
  { ou with divisions := updateFirst (fun d => d.name == division) push ou.divisions }

/-- Call `OrgUnit.updateOne({name, 'divisions.name'}, {$push: {'divisions.$.accounts': account}})`:
only the first document matching the filter, in natural order, is updated. -/
def updateOnePushAccount (orgUnits : List OrgUnit) (orgUnit division : String)
    (account : Credential) : List OrgUnit :=
  updateFirst (matchesDivision orgUnit division) (pushAccount division account) orgUnits

/-- Query filter of the credential update: every dotted path is matched on its
own, by any element of the arrays it crosses. -/
def matchesAccount (orgUnit division : String) (old : Credential) (ou : OrgUnit) : Bool :=
  ou.name == orgUnit
    && (ou.divisions.any fun d => d.name == division)
    && (ou.divisions.any fun d => d.accounts.any fun a => a.name == old.name)
    && (ou.divisions.any fun d => d.accounts.any fun a => a.username == old.username)
    && (ou.divisions.any fun d => d.accounts.any fun a => a.password == old.password)

/-- Array filter `{'acc.name', 'acc.username', 'acc.password'}`: the element
equals the old triple on all three fields. -/
def accFilter (old : Credential) (a : Credential) : Bool :=
  a.name == old.name && a.username == old.username && a.password == old.password

/-- Update `$set` on `divisions.$[].accounts.$[acc]`: in every division of the
document, every account selected by the array filter gets the new values. -/
def setAccounts (old new : Credential) (ou : OrgUnit) : OrgUnit :=
  let set := fun (a : Credential) =>
    if accFilter old a then
      { a with name := new.name, username := new.username, password := new.password }
    else a
  { ou with divisions := ou.divisions.map fun d => { d with accounts := d.accounts.map set } }

/-- Call `OrgUnit.updateOne(filter, {$set: ...}, {arrayFilters: ...})` of the
credential update: the collection afterwards and `modifiedCount` (1 when the
selected document was changed, else 0). -/
def updateOneSetAccounts (orgUnits : List OrgUnit) (orgUnit division : String)
    (old new : Credential) : List OrgUnit × Nat :=
  (updateFirst (matchesAccount orgUnit division old) (setAccounts old new) orgUnits,
   match orgUnits.find? (matchesAccount orgUnit division old) with
   | none => 0
   | some ou => if setAccounts old new ou = ou then 0 else 1)

end Mongo

/-! ## `controllers/normal_user.controller.js` -/

/-- Body of an `/add-credential` request. -/
structure AddCredentialBody where
  division : String
  organisational_unit : String
  name : String
  username : String
  password : String
  deriving DecidableEq, Repr

/-- The nested `for` loops of `addCredential`: the flag is set when an account
of a result document has the given name and username. -/
def addAccountAlreadyExists (result : List UnwoundDoc) (accountName accountUsername : String) :
    Bool :=
  result.foldl (fun flag doc =>
    doc.divisionAccounts.foldl (fun flag account =>
      if accountName == account.name && accountUsername == account.username then true
      else flag) flag) false

/-- Handler `exports.addCredential`. `token` is the result of `jwt.verify`
(`none` when it throws). -/
def addCredential (s : Store) (token : Option Assertion) (body : AddCredentialBody) :
    Outcome × Store :=
  match token with
  | none => (.badAssertion, s)
  | some user =>
    match findOne s.users user._id with
    | none => (.storeUnavailable, s)
    | some userResult =>
      let userRole := userResult.role
      if userRole == "normal" || userRole == "management" || userRole == "admin" then
        let result := aggregateMember s.orgUnits user._id body.organisational_unit body.division
        if result.length ≤ 0 then (.forbiddenMembership, s)
        else if !addAccountAlreadyExists result body.name body.username then
          let account : Credential :=
            { name := body.name, username := body.username, password := body.password }
          let orgUnits :=
            updateOnePushAccount s.orgUnits body.organisational_unit body.division account
          (.success, { s with orgUnits := orgUnits })
        else (.duplicateCredential, s)
      else (.forbiddenRole, s)

/-! ## `controllers/management_user.controller.js` -/

/-- Body of an `/update-credential` request. -/
structure UpdateCredentialBody where
  division : String
  organisational_unit : String
  old_name : String
  old_username : String
  old_password : String
  new_name : String
  new_username : String
  new_password : String
  deriving DecidableEq, Repr

/-- The nested `for` loops of `updateCredential`: the flag is set when an
account of a result document has the new name and username and the old name
and the old username both differ from the new ones. -/
def updateAccountAlreadyExists (result : List UnwoundDoc)
    (oldAccountName oldAccountUsername newAccountName newAccountUsername : String) : Bool :=
  result.foldl (fun flag doc =>
    doc.divisionAccounts.foldl (fun flag account =>
      if newAccountName == account.name && newAccountUsername == account.username
          && oldAccountName != newAccountName && oldAccountUsername != newAccountUsername
      then true else flag) flag) false

/-- Handler `exports.updateCredential`. `token` is the result of `jwt.verify`
(`none` when it throws). -/
def updateCredential (s : Store) (token : Option Assertion) (body : UpdateCredentialBody) :
    Outcome × Store :=
  match token with
  | none => (.badAssertion, s)
  | some user =>
    if body.new_name == "" || body.new_username == "" || body.new_password == "" then
      (.emptyField, s)
    else
      match findOne s.users user._id with
      | none => (.storeUnavailable, s)
      | some userResult =>
        let userRole := userResult.role
        if userRole == "management" || userRole == "admin" then
          let result := aggregateMember s.orgUnits user._id body.organisational_unit body.division
          if result.length ≤ 0 then (.forbiddenMembership, s)
          else if !updateAccountAlreadyExists result body.old_name body.old_username
              body.new_name body.new_username then
            let old : Credential :=
              { name := body.old_name, username := body.old_username,
                password := body.old_password }
            let new : Credential :=
              { name := body.new_name, username := body.new_username,
                password := body.new_password }
            let updateResult :=
              updateOneSetAccounts s.orgUnits body.organisational_unit body.division old new
            if updateResult.2 > 0 then (.success, { s with orgUnits := updateResult.1 })
            else (.nothingUpdated, { s with orgUnits := updateResult.1 })
          else (.duplicateCredential, s)
        else (.forbiddenRole, s)

/-! ## MongoDB operations of the membership and listing handlers -/

section MongoMembership

/-- The pipeline prefix of the listings: `$unwind`, `$unwind`, then
`$match: {'divisions.users': userId}`. -/
def aggregateUser (orgUnits : List OrgUnit) (userId : ObjectId) : List UnwoundDoc :=
  (unwind orgUnits).filter fun doc => doc.divisionUser == userId

/-- An output document of `$group: {_id: '$_id', name: {$first: '$name'},
divisions: {$push: ...}}`. -/
structure Grouped (β : Type) where
  _id : ObjectId
  name : String
  divisions : List β
  deriving DecidableEq, Repr

/-- One input document entering the `$group` stage: it is pushed onto the
group of its `_id`, or opens a new group that keeps its `name` (`$first`). -/
def groupInsert {β : Type} (item : UnwoundDoc → β) (doc : UnwoundDoc) :
    List (Grouped β) → List (Grouped β)
  | [] => [{ _id := doc._id, name := doc.name, divisions := [item doc] }]
  | g :: gs =>
    if g._id == doc._id then { g with divisions := g.divisions ++ [item doc] } :: gs
    else g :: groupInsert item doc gs

/-- The `$group` stage on `_id`: groups are listed in the order their first
document arrives, and `$push` keeps the order of the input documents. -/
def group {β : Type} (item : UnwoundDoc → β) (docs : List UnwoundDoc) : List (Grouped β) :=
  docs.foldl (fun groups doc => groupInsert item doc groups) []

/-- The aggregation of `getOrgUnitsAndDivisions` and `getAllUsers`: the
divisions of `userId`, grouped by organisational unit, `$push: '$divisions.name'`. -/
def aggregateDivisionNames (orgUnits : List OrgUnit) (userId : ObjectId) :
    List (Grouped String) :=
  group (fun doc => doc.divisionName) (aggregateUser orgUnits userId)

/-- A division as pushed by `viewCredentials`: `{name, accounts}`. -/
structure DivisionAccounts where
  name : String
  accounts : List Credential
  deriving DecidableEq, Repr

/-- The aggregation of `viewCredentials`: the divisions of `userId` with their
accounts, grouped by organisational unit. -/
def aggregateDivisionAccounts (orgUnits : List OrgUnit) (userId : ObjectId) :
    List (Grouped DivisionAccounts) :=
  group (fun doc => { name := doc.divisionName, accounts := doc.divisionAccounts })
    (aggregateUser orgUnits userId)

/-- Update `$set: {role: newRole}` of `User.updateOne({_id: userId}, ...)`: the
first user with the id gets the role; no user is changed when none has it. -/
def updateOneSetRole (users : List User) (userId : ObjectId) (newRole : String) : List User :=
  updateFirst (fun u => u._id == userId) (fun u => { u with role := newRole }) users

/-- Update `$push: {'divisions.$.users': userId}` on one document: `$` is the
first element of `divisions` matched by the query filter on `divisions.name`. -/
def pushUser (division : String) (userId : ObjectId) (ou : OrgUnit) : OrgUnit :=
  let push := fun (d : Division) => { d with users := d.users ++ [userId] }
  { ou with divisions := updateFirst (fun d => d.name == division) push ou.divisions }

/-- Call `OrgUnit.updateOne({name, 'divisions.name'}, {$push: {'divisions.$.users': userId}})`. -/
def updateOnePushUser (orgUnits : List OrgUnit) (orgUnit division : String)
    (userId : ObjectId) : List OrgUnit :=
  updateFirst (matchesDivision orgUnit division) (pushUser division userId) orgUnits

/-- Query filter `{name: orgUnit, 'divisions.users': userId, 'divisions.name': division}`:
the two conditions on `divisions` are matched on their own, each by any
element of the array. -/
def matchesUserDivision (orgUnit division : String) (userId : ObjectId) (ou : OrgUnit) : Bool :=
  ou.name == orgUnit
    && (ou.divisions.any fun d => d.users.any fun u => u == userId)
    && (ou.divisions.any fun d => d.name == division)

/-- Update `$pull: {'divisions.$.users': userId}` on one document. The filter
has two conditions on `divisions` and no `$elemMatch`; the server takes for `$`
the index recorded by the condition on the array it evaluates last, and it
evaluates the conditions of a filter in the order of their paths, so
`divisions.users` after `divisions.name`: `$` is the first division whose
`users` holds the id. `$pull` removes every occurrence of the id there. -/
def pullUser (userId : ObjectId) (ou : OrgUnit) : OrgUnit :=
  let pull := fun (d : Division) => { d with users := d.users.filter fun u => u != userId }
  let holds := fun (d : Division) => d.users.any fun u => u == userId
  { ou with divisions := updateFirst holds pull ou.divisions }

/-- Call `OrgUnit.updateOne({name, 'divisions.users', 'divisions.name'},
{$pull: {'divisions.$.users': userId}})`. -/
def updateOnePullUser (orgUnits : List OrgUnit) (orgUnit division : String)
    (userId : ObjectId) : List OrgUnit :=
  updateFirst (matchesUserDivision orgUnit division userId) (pullUser userId) orgUnits

end MongoMembership

/-! ## `controllers/normal_user.controller.js`: `viewCredentials` -/

deriving instance DecidableEq for Except

/-- Handler `exports.viewCredentials`: the reply is the aggregation result or
the error sent. -/
def viewCredentials (s : Store) (token : Option Assertion) :
    Except Outcome (List (Grouped DivisionAccounts)) :=
  match token with
  | none => .error .badAssertion
  | some user =>
    match findOne s.users user._id with
    | none => .error .storeUnavailable
    | some userResult =>
      let userRole := userResult.role
      if userRole == "normal" || userRole == "management" || userRole == "admin" then
        .ok (aggregateDivisionAccounts s.orgUnits user._id)
      else .error .forbiddenRole

/-! ## `controllers/log.controller.js` -/

/-- A user with the organisational units and divisions the user belongs to, as
sent by `getOrgUnitsAndDivisions` and, per user, by `getAllUsers`. -/
structure Profile where
  _id : ObjectId
  username : String
  role : String
  organisational_units : List (Grouped String)
  deriving DecidableEq, Repr

/-- Handler `exports.getOrgUnitsAndDivisions`. There is no role test; a caller
absent from the `users` collection makes `userResult.username` throw. -/
def getOrgUnitsAndDivisions (s : Store) (token : Option Assertion) : Except Outcome Profile :=
  match token with
  | none => .error .badAssertion
  | some user =>
    let orgsResult := aggregateDivisionNames s.orgUnits user._id
    match findOne s.users user._id with
    | none => .error .storeUnavailable
    | some userResult =>
      .ok { _id := user._id, username := userResult.username, role := userResult.role,
            organisational_units := orgsResult }

/-- Handler `exports.getAllUsers`. The caller is looked up outside the inner
`try`, so an absent caller ends in the outer `catch` (status 401). -/
def getAllUsers (s : Store) (token : Option Assertion) : Except Outcome (List Profile) :=
  match token with
  | none => .error .badAssertion
  | some user =>
    match findOne s.users user._id with
    | none => .error .badAssertion
    | some userResult =>
      if userResult.role == "normal" || userResult.role == "management"
          || userResult.role == "admin" then
        .ok (s.users.map fun u =>
          { _id := u._id, username := u.username, role := u.role,
            organisational_units := aggregateDivisionNames s.orgUnits u._id })
      else .error .forbiddenRole

/-! ## `controllers/admin_user.controller.js` -/

/-- The replies of `updateRole`, `assignDivision` and `unassignDivision`, one
constructor per `res.send` site. -/
inductive AdminOutcome where
  /-- Status 200 with a `message`. -/
  | success
  /-- Status 403, the caller is not an admin. -/
  | forbiddenRole
  /-- Status 403, the caller is not part of the division. -/
  | forbiddenMembership
  /-- Status 403, the new role is not a valid role. -/
  | invalidRole
  /-- Status 403, the user is already assigned to the division. -/
  | alreadyAssigned
  /-- Status 403, the user does not belong to the division. -/
  | notAssigned
  /-- The inner `catch`: `res.send(500)` answers, then the chained `.send(...)`
  on the answered response throws inside the `catch` block. -/
  | storeUnavailableFault
  /-- The outer `catch`: `res.send(401)` answers, then the chained `.send(...)`
  on the answered response throws inside the `catch` block. -/
  | badAssertionFault
  deriving DecidableEq, Repr

/-- The spec's `Forbidden` outcome of the admin handlers. -/
def AdminOutcome.isForbidden : AdminOutcome → Bool
  | .forbiddenRole => true
  | .forbiddenMembership => true
  | _ => false

/-- Body of an `/update-role` request; `user_id` is `none` when the value sent
does not cast to an `ObjectId`. -/
structure UpdateRoleBody where
  user_id : Option ObjectId
  new_role : String
  deriving DecidableEq, Repr

/-- Handler `exports.updateRole`. -/
def updateRole (s : Store) (token : Option Assertion) (body : UpdateRoleBody) :
    AdminOutcome × Store :=
  match token with
  | none => (.badAssertionFault, s)
  | some user =>
    match findOne s.users user._id with
    | none => (.storeUnavailableFault, s)
    | some adminUserResult =>
      let adminRole := adminUserResult.role
      if adminRole == "admin" then
        if body.new_role != "normal" && body.new_role != "management"
            && body.new_role != "admin" then (.invalidRole, s)
        else
          match body.user_id with
          | none => (.storeUnavailableFault, s)
          | some userId =>
            (.success, { s with users := updateOneSetRole s.users userId body.new_role })
      else (.forbiddenRole, s)

/-- Body of an `/assign-division` or `/unassign-division` request; `user_id`
is `none` when the value sent does not cast to an `ObjectId`. -/
structure DivisionBody where
  user_id : Option ObjectId
  organisational_unit : String
  division : String
  deriving DecidableEq, Repr

/-- Handler `exports.assignDivision`. -/
def assignDivision (s : Store) (token : Option Assertion) (body : DivisionBody) :
    AdminOutcome × Store :=
  match token with
  | none => (.badAssertionFault, s)
  | some user =>
    match findOne s.users user._id with
    | none => (.storeUnavailableFault, s)
    | some adminUserResult =>
      let adminRole := adminUserResult.role
      if adminRole == "admin" then
        let adminResult :=
          aggregateMember s.orgUnits user._id body.organisational_unit body.division
        if adminResult.length ≤ 0 then (.forbiddenMembership, s)
        else
          match body.user_id with
          | none => (.storeUnavailableFault, s)
          | some userId =>
            let userResult :=
              aggregateMember s.orgUnits userId body.organisational_unit body.division
            if userResult.length > 0 then (.alreadyAssigned, s)
            else
              let orgUnits :=
                updateOnePushUser s.orgUnits body.organisational_unit body.division userId
              (.success, { s with orgUnits := orgUnits })
      else (.forbiddenRole, s)

/-- Handler `exports.unassignDivision`. -/
def unassignDivision (s : Store) (token : Option Assertion) (body : DivisionBody) :
    AdminOutcome × Store :=
  match token with
  | none => (.badAssertionFault, s)
  | some user =>
    match findOne s.users user._id with
    | none => (.storeUnavailableFault, s)
    | some adminUserResult =>
      let adminRole := adminUserResult.role
      if adminRole == "admin" then
        let adminResult :=
          aggregateMember s.orgUnits user._id body.organisational_unit body.division
        if adminResult.length ≤ 0 then (.forbiddenMembership, s)
        else
          match body.user_id with
          | none => (.storeUnavailableFault, s)
          | some userId =>
            let userResult :=
              aggregateMember s.orgUnits userId body.organisational_unit body.division
            if userResult.length ≤ 0 then (.notAssigned, s)
            else
              let orgUnits :=
                updateOnePullUser s.orgUnits body.organisational_unit body.division userId
              (.success, { s with orgUnits := orgUnits })
      else (.forbiddenRole, s)

/-! ## `controllers/login_register.controller.js` -/

/-- What the handlers of registration and login call outside the repository:
`String.prototype.toLowerCase`, `bcrypt.hash(password, salt)` and
`bcrypt.compare(password, hash)`. -/
structure Env where
  toLowerCase : String → String
  hash : String → String → String
  compare : String → String → Bool

/-- Body of a `/register` or `/login` request. -/
structure LoginRegisterBody where
  username : String
  password : String
  deriving DecidableEq, Repr

/-- The replies of `registerUser`, one constructor per `res.send` site. -/
inductive RegisterOutcome where
  /-- Status 200, `New user registered.` -/
  | registered
  /-- Status 403, the username is already taken by `existingUsername`. -/
  | usernameTaken (existingUsername : String)
  /-- Status 500, an exception was caught. -/
  | storeUnavailable
  deriving DecidableEq, Repr

/-- The `for` loop of `registerUser` over `userList`: the pair
(`usernameFound`, `existingUsername`). -/
def usernameScan (env : Env) (userList : List User) (username : String) : Bool × String :=
  userList.foldl (fun found user =>
    let currentUsername := user.username
    if env.toLowerCase currentUsername == env.toLowerCase username then (true, currentUsername)
    else found) (false, "")

/-- Call `User.create({username, password, role})` with the schema of
`models/User.js`: `username` and `password` are `required`, which a string
satisfies when it is not empty; the document is stored last, under the id the
database generates. `none` when validation throws. -/
def create (users : List User) (newId : ObjectId) (username password role : String) :
    Option (List User) :=
  if username != "" && password != "" then
    some (users ++ [{ _id := newId, username := username, password := password, role := role }])
  else none

/-- Handler `exports.registerUser`. `salt` is the result of `bcrypt.genSalt(10)`
and `newId` the `_id` generated for the created document. -/
def registerUser (env : Env) (s : Store) (body : LoginRegisterBody) (salt : String)
    (newId : ObjectId) : RegisterOutcome × Store :=
  let defaultRole := "normal"
  let found := usernameScan env s.users body.username
  if found.1 then (.usernameTaken found.2, s)
  else
    let encryptedPassword := env.hash body.password salt
    match create s.users newId body.username encryptedPassword defaultRole with
    | none => (.storeUnavailable, s)
    | some users => (.registered, { s with users := users })

/-- The replies of `loginUser`, one constructor per `res.send` site; the token
is the signed payload. -/
inductive LoginOutcome where
  /-- Status 200, a token signed over `payload`. -/
  | token (payload : Assertion)
  /-- Status 403, `Incorrect login details.` -/
  | invalidCredentials
  /-- Status 500, an exception was caught. -/
  | storeUnavailable
  deriving DecidableEq, Repr

/-- The `for` loop of `loginUser` over `userList`: `userPayload`, with `none`
for the empty object. There is no `break`: every matching user overwrites the
payload. -/
def loginScan (env : Env) (userList : List User) (username password : String) :
    Option Assertion :=
  userList.foldl (fun userPayload user =>
    let username_i := user.username
    let password_hash_i := user.password
    let passwordMatches := env.compare password password_hash_i
    if env.toLowerCase username == env.toLowerCase username_i && passwordMatches then
      some { _id := user._id, username := username_i, role := user.role }
    else userPayload) none

/-- Handler `exports.loginUser`. -/
def loginUser (env : Env) (s : Store) (body : LoginRegisterBody) : LoginOutcome :=
  match loginScan env s.users body.username body.password with
  | some userPayload => .token userPayload
  | none => .invalidCredentials

/-- The replies of the admin handlers that end in a `catch` block whose chained
second `send` throws. -/
def AdminOutcome.isFault : AdminOutcome → Bool
  | .storeUnavailableFault => true
  | .badAssertionFault => true
  | _ => false

/-! ## Properties of the store the claims speak about -/

/-- The caller-membership edge: some division named `division` of some
organisational unit named `orgUnit` has `userId` among its `users`. -/
def IsMember (orgUnits : List OrgUnit) (userId : ObjectId) (orgUnit division : String) : Prop :=
  ∃ ou ∈ orgUnits, ou.name = orgUnit ∧ ∃ d ∈ ou.divisions, d.name = division ∧ userId ∈ d.users

instance (orgUnits : List OrgUnit) (userId : ObjectId) (orgUnit division : String) :
    Decidable (IsMember orgUnits userId orgUnit division) := by
  unfold IsMember; infer_instance

/-- Names identify divisions: organisational-unit names are pairwise distinct
and so are the division names inside each unit. -/
def UniqueNames (orgUnits : List OrgUnit) : Prop :=
  (orgUnits.map (fun ou => ou.name)).Nodup ∧
    ∀ ou ∈ orgUnits, (ou.divisions.map (fun d => d.name)).Nodup

instance (orgUnits : List OrgUnit) : Decidable (UniqueNames orgUnits) := by
  unfold UniqueNames; infer_instance

/-- Credential uniqueness: in every division no two accounts share both name
and username. -/
def CredentialsUnique (orgUnits : List OrgUnit) : Prop :=
  ∀ ou ∈ orgUnits, ∀ d ∈ ou.divisions,
    (d.accounts.map (fun a => (a.name, a.username))).Nodup

instance (orgUnits : List OrgUnit) : Decidable (CredentialsUnique orgUnits) := by
  unfold CredentialsUnique; infer_instance

/-! ## Concrete stores and requests -/

/-- Calls of the credential registry, for sequences of operations. -/
inductive Call where
  | add (token : Option Assertion) (body : AddCredentialBody)
  | update (token : Option Assertion) (body : UpdateCredentialBody)
  deriving DecidableEq, Repr

/-- Store after one call. -/
def step (s : Store) : Call → Store
  | .add token body => (addCredential s token body).2
  | .update token body => (updateCredential s token body).2

/-- Store after a finite sequence of calls. -/
def run (s : Store) (calls : List Call) : Store :=
  calls.foldl step s

/-- A manager, a normal user and an administrator. -/
def exampleUsers : List User :=
  [ { _id := 1, username := "dana", password := "hash1", role := "management" },
    { _id := 2, username := "carl", password := "hash2", role := "normal" },
    { _id := 3, username := "alice", password := "hash3", role := "admin" } ]

/-- Token of the manager `dana`. -/
def danaToken : Assertion := { _id := 1, username := "dana", role := "management" }

/-- Token of the normal user `carl`. -/
def carlToken : Assertion := { _id := 2, username := "carl", role := "normal" }

/-- One unit `Sales` with divisions `East` (members `dana`, `carl`) and `West`
(member `alice`), holding the given accounts. -/
def salesStore (east west : List Credential) : Store :=
  { users := exampleUsers,
    orgUnits := [
      { _id := 10, name := "Sales",
        divisions := [
          { name := "East", users := [1, 2], accounts := east },
          { name := "West", users := [3], accounts := west } ] } ] }

/-- The credential `mail` of user `a`. -/
def mailA : Credential := { name := "mail", username := "a", password := "p1" }

/-- The credential `mail` of user `b`. -/
def mailB : Credential := { name := "mail", username := "b", password := "p2" }

/-- The credential `vpn` of user `a`. -/
def vpnA : Credential := { name := "vpn", username := "a", password := "p3" }

/-- Request to add `mailA` to `Sales`/`East`. -/
def addMailA : AddCredentialBody :=
  { division := "East", organisational_unit := "Sales",
    name := "mail", username := "a", password := "p1" }

/-- Request to add `mail`/`a` to `Sales`/`East` with another password. -/
def addMailAOther : AddCredentialBody :=
  { division := "East", organisational_unit := "Sales",
    name := "mail", username := "a", password := "other" }

/-- Request to add `mailB` to `Sales`/`East`. -/
def addMailB : AddCredentialBody :=
  { division := "East", organisational_unit := "Sales",
    name := "mail", username := "b", password := "p2" }

/-- Request to add `mailA` to `Sales`/`West`. -/
def addMailAWest : AddCredentialBody :=
  { division := "West", organisational_unit := "Sales",
    name := "mail", username := "a", password := "p1" }

/-- Request to replace `old` by `new` in `Sales`/`East`. -/
def updateEast (old new : Credential) : UpdateCredentialBody :=
  { division := "East", organisational_unit := "Sales",
    old_name := old.name, old_username := old.username, old_password := old.password,
    new_name := new.name, new_username := new.username, new_password := new.password }

/-- Request to replace `old` by `new` in `Sales`/`West`. -/
def updateWest (old new : Credential) : UpdateCredentialBody :=
  { division := "West", organisational_unit := "Sales",
    old_name := old.name, old_username := old.username, old_password := old.password,
    new_name := new.name, new_username := new.username, new_password := new.password }

/-! ## Membership: properties, call sequences and concrete stores -/

/-- Documents of the organisational-unit collection have pairwise distinct
`_id`s, as the database enforces. -/
def DistinctIds (orgUnits : List OrgUnit) : Prop :=
  (orgUnits.map fun ou => ou._id).Nodup

instance (orgUnits : List OrgUnit) : Decidable (DistinctIds orgUnits) := by
  unfold DistinctIds; infer_instance

/-- No duplicate membership: a user id appears at most once in the `users` of
every division. -/
def UsersNodup (orgUnits : List OrgUnit) : Prop :=
  ∀ ou ∈ orgUnits, ∀ d ∈ ou.divisions, d.users.Nodup

instance (orgUnits : List OrgUnit) : Decidable (UsersNodup orgUnits) := by
  unfold UsersNodup; infer_instance

/-- The membership listing in the spec's words (4.4): per organisational unit,
the names of its divisions whose `users` contains the user, in stored order;
units with no such division do not appear. -/
def listMemberships (orgUnits : List OrgUnit) (userId : ObjectId) : List (Grouped String) :=
  orgUnits.filterMap fun ou =>
    let names := (ou.divisions.filter fun d => decide (userId ∈ d.users)).map fun d => d.name
    if names = [] then none else some { _id := ou._id, name := ou.name, divisions := names }

/-- Calls of the membership handlers, for sequences of operations. -/
inductive MembershipCall where
  | assign (token : Option Assertion) (body : DivisionBody)
  | unassign (token : Option Assertion) (body : DivisionBody)
  deriving DecidableEq, Repr

/-- Store after one membership call. -/
def stepMembership (s : Store) : MembershipCall → Store
  | .assign token body => (assignDivision s token body).2
  | .unassign token body => (unassignDivision s token body).2

/-- Store after a finite sequence of membership calls. -/
def runMembership (s : Store) (calls : List MembershipCall) : Store :=
  calls.foldl stepMembership s

/-- Token of the administrator `alice`. -/
def aliceToken : Assertion := { _id := 3, username := "alice", role := "admin" }

/-- One unit `Sales` with divisions `East` (accounts `mailA`) and `West`
(accounts `mailB`), with the given members. -/
def membersStore (east west : List ObjectId) : Store :=
  { users := exampleUsers,
    orgUnits := [
      { _id := 10, name := "Sales",
        divisions := [
          { name := "East", users := east, accounts := [mailA] },
          { name := "West", users := west, accounts := [mailB] } ] } ] }

/-! ## User directory: properties, call sequences and concrete data -/

/-- Role validity: every stored role is `normal`, `management` or `admin`. -/
def RolesValid (users : List User) : Prop :=
  ∀ u ∈ users, u.role = "normal" ∨ u.role = "management" ∨ u.role = "admin"

instance (users : List User) : Decidable (RolesValid users) := by
  unfold RolesValid; infer_instance

/-- No two stored usernames are equal ignoring case. -/
def UsernamesDistinct (env : Env) (users : List User) : Prop :=
  (users.map fun u => env.toLowerCase u.username).Nodup

instance (env : Env) (users : List User) : Decidable (UsernamesDistinct env users) := by
  unfold UsernamesDistinct; infer_instance

/-- A stored user matches a login: same username ignoring case and a hash that
verifies against the password. -/
def Matches (env : Env) (username password : String) (user : User) : Prop :=
  env.toLowerCase username = env.toLowerCase user.username ∧
    env.compare password user.password = true

instance (env : Env) (username password : String) (user : User) :
    Decidable (Matches env username password user) := by
  unfold Matches; infer_instance

/-- The shape of a listing for a user: at most one entry per id, no entry
without divisions, and every entry is a unit with a division holding the user. -/
def WellGrouped {β : Type} (orgUnits : List OrgUnit) (userId : ObjectId)
    (listing : List (Grouped β)) : Prop :=
  (listing.map fun g => g._id).Nodup ∧
    (∀ g ∈ listing, g.divisions ≠ []) ∧
    (∀ g ∈ listing, ∃ ou ∈ orgUnits, ou._id = g._id ∧ ∃ d ∈ ou.divisions, userId ∈ d.users) ∧
    (DistinctIds orgUnits → ∀ ou ∈ orgUnits, (∀ d ∈ ou.divisions, userId ∉ d.users) →
      ∀ g ∈ listing, g._id ≠ ou._id)

/-- Calls that write the user directory, for sequences of operations. -/
inductive DirectoryCall where
  | register (body : LoginRegisterBody) (salt : String) (newId : ObjectId)
  | updateRole (token : Option Assertion) (body : UpdateRoleBody)
  deriving DecidableEq, Repr

/-- Store after one call on the user directory. -/
def stepDirectory (env : Env) (s : Store) : DirectoryCall → Store
  | .register body salt newId => (registerUser env s body salt newId).2
  | .updateRole token body => (updateRole s token body).2

/-- Store after a finite sequence of calls on the user directory. -/
def runDirectory (env : Env) (s : Store) (calls : List DirectoryCall) : Store :=
  calls.foldl (stepDirectory env) s

/-- Lower-casing of the letters `A` to `Z`, for the concrete examples. -/
def asciiLower (s : String) : String :=
  String.mk (s.data.map Char.toLower)

/-- A toy environment for the concrete examples: the hash of `p` is `h(p)`
whatever the salt, and it verifies against `p` only. -/
def toyEnv : Env :=
  { toLowerCase := asciiLower,
    hash := fun password _ => "h(" ++ password ++ ")",
    compare := fun password hash => hash == "h(" ++ password ++ ")" }

/-- A directory with one user `Alice`. -/
def aliceDirectory : Store :=
  { users := [{ _id := 1, username := "Alice", password := "h(secret)", role := "admin" }],
    orgUnits := [] }

/-- A directory in which `Bob` and `bob` have the same password. -/
def twoBobs : Store :=
  { users := [
      { _id := 1, username := "Bob", password := "h(pw)", role := "admin" },
      { _id := 2, username := "bob", password := "h(pw)", role := "normal" } ],
    orgUnits := [] }

/-- One unit `Sales` with two divisions both named `East`: the first, with
member `dana`, holds the given accounts; the second, with member `carl`, holds
none. -/
def twoEasts (first : List Credential) : Store :=
  { users := exampleUsers,
    orgUnits := [
      { _id := 10, name := "Sales",
        divisions := [
          { name := "East", users := [1], accounts := first },
          { name := "East", users := [2], accounts := [] } ] } ] }

/-- An environment whose hash returns the password itself, which verifies
against it. -/
def plainEnv : Env :=
  { toLowerCase := asciiLower,
    hash := fun password _ => password,
    compare := fun password hash => hash == password }

/-! ## Lemmas on the store operations -/

theorem updateFirst_of_forall_not {α : Type} (p : α → Bool) (f : α → α) (l : List α)
    (h : ∀ x ∈ l, p x = false) : updateFirst p f l = l := by
  induction l with
  | nil => rfl
  | cons x xs ih =>
    have hx : p x = false := h x (List.mem_cons_self _ _)
    simp [updateFirst, hx, ih (fun y hy => h y (List.mem_cons_of_mem _ hy))]

theorem updateFirst_append {α : Type} (p : α → Bool) (f : α → α) (pre post : List α) (x : α)
    (hpre : ∀ y ∈ pre, p y = false) (hx : p x = true) :
    updateFirst p f (pre ++ x :: post) = pre ++ f x :: post := by
  induction pre with
  | nil => simp [updateFirst, hx]
  | cons y ys ih =>
    have hy : p y = false := hpre y (List.mem_cons_self _ _)
    simp [updateFirst, hy, ih (fun z hz => hpre z (List.mem_cons_of_mem _ hz))]

theorem exists_first_of_any {α : Type} (p : α → Bool) (l : List α) (h : ∃ x ∈ l, p x = true) :
    ∃ pre x post, l = pre ++ x :: post ∧ (∀ y ∈ pre, p y = false) ∧ p x = true := by
  induction l with
  | nil => simp at h
  | cons a as ih =>
    by_cases ha : p a = true
    · exact ⟨[], a, as, rfl, by simp, ha⟩
    · have ha' : p a = false := by simpa using ha
      obtain ⟨x, hx, hpx⟩ := h
      have hx' : x ∈ as := by
        rcases List.mem_cons.1 hx with rfl | hx'
        · exact absurd hpx ha
        · exact hx'
      obtain ⟨pre, y, post, hl, hpre, hy⟩ := ih ⟨x, hx', hpx⟩
      refine ⟨a :: pre, y, post, by simp [hl], ?_, hy⟩
      intro z hz
      rcases List.mem_cons.1 hz with rfl | hz'
      · exact ha'
      · exact hpre z hz'

theorem mem_updateFirst_of_unique {α : Type} (p : α → Bool) (f : α → α) (l : List α) (x : α)
    (hx : x ∈ l) (hp : p x = true) (huniq : ∀ y ∈ l, p y = true → y = x) :
    f x ∈ updateFirst p f l := by
  induction l with
  | nil => simp at hx
  | cons a as ih =>
    by_cases ha : p a = true
    · have : a = x := huniq a (List.mem_cons_self _ _) ha
      subst this
      simp [updateFirst, ha]
    · have hxa : x ∈ as := by
        rcases List.mem_cons.1 hx with rfl | h
        · exact absurd hp ha
        · exact h
      simp only [updateFirst, ha]
      exact List.mem_cons_of_mem _ (ih hxa (fun y hy => huniq y (List.mem_cons_of_mem _ hy)))

theorem mem_unwind (orgUnits : List OrgUnit) (doc : UnwoundDoc) :
    doc ∈ unwind orgUnits ↔
      ∃ ou ∈ orgUnits, ∃ d ∈ ou.divisions, ∃ u ∈ d.users,
        doc = { _id := ou._id, name := ou.name, divisionName := d.name,
                divisionUser := u, divisionAccounts := d.accounts } := by
  simp only [unwind, List.mem_flatMap, List.mem_map]
  constructor
  · rintro ⟨ou, hou, d, hd, u, hu, rfl⟩
    exact ⟨ou, hou, d, hd, u, hu, rfl⟩
  · rintro ⟨ou, hou, d, hd, u, hu, rfl⟩
    exact ⟨ou, hou, d, hd, u, hu, rfl⟩

theorem mem_aggregateMember (orgUnits : List OrgUnit) (userId : ObjectId)
    (orgUnit division : String) (doc : UnwoundDoc) :
    doc ∈ aggregateMember orgUnits userId orgUnit division ↔
      ∃ ou ∈ orgUnits, ou.name = orgUnit ∧ ∃ d ∈ ou.divisions, d.name = division ∧
        userId ∈ d.users ∧
        doc = { _id := ou._id, name := ou.name, divisionName := d.name,
                divisionUser := userId, divisionAccounts := d.accounts } := by
  simp only [aggregateMember, List.mem_filter, mem_unwind, Bool.and_eq_true, beq_iff_eq]
  constructor
  · rintro ⟨⟨ou, hou, d, hd, u, hu, rfl⟩, ⟨h1, h2⟩, h3⟩
    simp only at h1 h2 h3
    subst h1
    exact ⟨ou, hou, h2, d, hd, h3, hu, rfl⟩
  · rintro ⟨ou, hou, h2, d, hd, h3, hu, rfl⟩
    exact ⟨⟨ou, hou, d, hd, userId, hu, rfl⟩, ⟨rfl, h2⟩, h3⟩

theorem aggregateMember_empty_iff (orgUnits : List OrgUnit) (userId : ObjectId)
    (orgUnit division : String) :
    (aggregateMember orgUnits userId orgUnit division).length ≤ 0 ↔
      ¬ IsMember orgUnits userId orgUnit division := by
  rw [Nat.le_zero, List.length_eq_zero, List.eq_nil_iff_forall_not_mem]
  constructor
  · rintro h ⟨ou, hou, hn, d, hd, hdn, hu⟩
    exact h _ ((mem_aggregateMember _ _ _ _ _).2 ⟨ou, hou, hn, d, hd, hdn, hu, rfl⟩)
  · rintro h doc hdoc
    obtain ⟨ou, hou, hn, d, hd, hdn, hu, -⟩ := (mem_aggregateMember _ _ _ _ _).1 hdoc
    exact h ⟨ou, hou, hn, d, hd, hdn, hu⟩

theorem foldl_flag (p : Credential → Bool) (accounts : List Credential) (flag : Bool) :
    accounts.foldl (fun flag account => if p account then true else flag) flag
      = (flag || accounts.any p) := by
  induction accounts generalizing flag with
  | nil => simp
  | cons a as ih =>
    simp only [List.foldl_cons, ih, List.any_cons]
    cases flag <;> cases p a <;> simp

theorem foldl_flag_docs (p : Credential → Bool) (result : List UnwoundDoc) (flag : Bool) :
    result.foldl (fun flag doc =>
        doc.divisionAccounts.foldl (fun flag account => if p account then true else flag) flag)
        flag
      = (flag || result.any fun doc => doc.divisionAccounts.any p) := by
  induction result generalizing flag with
  | nil => simp
  | cons a as ih =>
    rw [List.foldl_cons, foldl_flag, ih, List.any_cons, Bool.or_assoc]

theorem addAccountAlreadyExists_eq (result : List UnwoundDoc) (n u : String) :
    addAccountAlreadyExists result n u
      = result.any fun doc => doc.divisionAccounts.any fun a => n == a.name && u == a.username := by
  unfold addAccountAlreadyExists
  rw [foldl_flag_docs (fun a => n == a.name && u == a.username)]
  simp

theorem updateAccountAlreadyExists_eq (result : List UnwoundDoc)
    (oldN oldU newN newU : String) :
    updateAccountAlreadyExists result oldN oldU newN newU
      = result.any fun doc => doc.divisionAccounts.any fun a =>
          newN == a.name && newU == a.username && oldN != newN && oldU != newU := by
  unfold updateAccountAlreadyExists
  rw [foldl_flag_docs
    (fun a => newN == a.name && newU == a.username && oldN != newN && oldU != newU)]
  simp

theorem addAccountAlreadyExists_of_mem (orgUnits : List OrgUnit) (userId : ObjectId)
    (orgUnit division n u : String) (ou : OrgUnit) (d : Division) (a : Credential)
    (hou : ou ∈ orgUnits) (hn : ou.name = orgUnit) (hd : d ∈ ou.divisions)
    (hdn : d.name = division) (hu : userId ∈ d.users) (ha : a ∈ d.accounts)
    (han : a.name = n) (hau : a.username = u) :
    addAccountAlreadyExists (aggregateMember orgUnits userId orgUnit division) n u = true := by
  rw [addAccountAlreadyExists_eq, List.any_eq_true]
  refine ⟨_, (mem_aggregateMember _ _ _ _ _).2 ⟨ou, hou, hn, d, hd, hdn, hu, rfl⟩, ?_⟩
  rw [List.any_eq_true]
  exact ⟨a, ha, by simp [han, hau]⟩

theorem addCredential_duplicate_of_mem (s : Store) (user : Assertion) (body : AddCredentialBody)
    (userResult : User) (ou : OrgUnit) (d : Division) (a : Credential)
    (hfind : findOne s.users user._id = some userResult)
    (hrole : userResult.role = "normal" ∨ userResult.role = "management" ∨
      userResult.role = "admin")
    (hou : ou ∈ s.orgUnits) (hn : ou.name = body.organisational_unit)
    (hd : d ∈ ou.divisions) (hdn : d.name = body.division) (hu : user._id ∈ d.users)
    (ha : a ∈ d.accounts) (han : a.name = body.name) (hau : a.username = body.username) :
    addCredential s (some user) body = (.duplicateCredential, s) := by
  have hmem : IsMember s.orgUnits user._id body.organisational_unit body.division :=
    ⟨ou, hou, hn, d, hd, hdn, hu⟩
  have hlen : ¬ (aggregateMember s.orgUnits user._id body.organisational_unit
      body.division).length ≤ 0 := fun h => (aggregateMember_empty_iff _ _ _ _).1 h hmem
  have hflag := addAccountAlreadyExists_of_mem s.orgUnits user._id body.organisational_unit
    body.division body.name body.username ou d a hou hn hd hdn hu ha han hau
  have hr : (userResult.role == "normal" || userResult.role == "management"
      || userResult.role == "admin") = true := by
    rcases hrole with h | h | h <;> simp [h]
  simp only [addCredential, hfind, hr, if_true, hlen, if_false, hflag]
  simp


theorem addCredential_success_inv (s s' : Store) (token : Option Assertion)
    (body : AddCredentialBody) (h : addCredential s token body = (.success, s')) :
    ∃ user userResult, token = some user ∧ findOne s.users user._id = some userResult ∧
      (userResult.role = "normal" ∨ userResult.role = "management" ∨
        userResult.role = "admin") ∧
      IsMember s.orgUnits user._id body.organisational_unit body.division ∧
      addAccountAlreadyExists
        (aggregateMember s.orgUnits user._id body.organisational_unit body.division)
        body.name body.username = false ∧
      s' = { s with orgUnits :=
              (updateOnePushAccount s.orgUnits body.organisational_unit body.division
                ⟨body.name, body.username, body.password⟩) } := by
  unfold addCredential at h
  cases token with
  | none => simp at h
  | some user =>
    cases hfind : findOne s.users user._id with
    | none => simp [hfind] at h
    | some userResult =>
      simp only [hfind] at h
      by_cases hr : (userResult.role == "normal" || userResult.role == "management"
          || userResult.role == "admin") = true
      · simp only [hr, if_true] at h
        by_cases hlen : (aggregateMember s.orgUnits user._id body.organisational_unit
            body.division).length ≤ 0
        · simp [hlen] at h
        · simp only [hlen, if_false] at h
          cases hflag : addAccountAlreadyExists
              (aggregateMember s.orgUnits user._id body.organisational_unit body.division)
              body.name body.username with
          | true => simp [hflag] at h
          | false =>
            simp only [hflag, Bool.not_false, if_true, Prod.mk.injEq, true_and] at h
            refine ⟨user, userResult, rfl, hfind, ?_, ?_, hflag, h.symm⟩
            · simpa [or_assoc] using hr
            · by_contra hm
              exact hlen ((aggregateMember_empty_iff _ _ _ _).2 hm)
      · simp [hr] at h

theorem nodup_map_eq_of_mem {α β : Type} (f : α → β) (l : List α)
    (h : (l.map f).Nodup) (x y : α) (hx : x ∈ l) (hy : y ∈ l) (hxy : f x = f y) : x = y :=
  List.inj_on_of_nodup_map h hx hy hxy

/-- C4 (amended). In every store, a caller with a valid stored role who is a
member of the division named by the request, adding a credential whose name
and username some account of that division already carries (whatever its
password), gets `DuplicateCredential` and the store is unchanged; and, in a
store where names identify divisions (distinct unit names, distinct division
names within each unit), repeating a successful add gets `DuplicateCredential`
with the store unchanged. -/
theorem addCredential_duplicate (s : Store) (user : Assertion) (body : AddCredentialBody) :
    (∀ (userResult : User) (ou : OrgUnit) (d : Division) (a : Credential),
      findOne s.users user._id = some userResult →
      (userResult.role = "normal" ∨ userResult.role = "management" ∨
        userResult.role = "admin") →
      ou ∈ s.orgUnits → ou.name = body.organisational_unit →
      d ∈ ou.divisions → d.name = body.division → user._id ∈ d.users →
      a ∈ d.accounts → a.name = body.name → a.username = body.username →
      addCredential s (some user) body = (.duplicateCredential, s)) ∧
    (∀ s' : Store, UniqueNames s.orgUnits →
      addCredential s (some user) body = (.success, s') →
      addCredential s' (some user) body = (.duplicateCredential, s')) := by
  refine ⟨fun userResult ou d a hfind hrole hou hn hd hdn hu ha han hau =>
    addCredential_duplicate_of_mem s user body userResult ou d a hfind hrole hou hn hd hdn hu
      ha han hau, ?_⟩
  intro s' huniq hsucc
  obtain ⟨user', userResult, htok, hfind, hrole, hmem, -, hs'⟩ :=
    addCredential_success_inv s s' (some user) body hsucc
  cases htok
  obtain ⟨ou, hou, hn, d, hd, hdn, hu⟩ := hmem
  have hmd : matchesDivision body.organisational_unit body.division ou = true := by
    simp only [matchesDivision, Bool.and_eq_true, beq_iff_eq, List.any_eq_true]
    exact ⟨hn, d, hd, hdn⟩
  have hou' : pushAccount body.division ⟨body.name, body.username, body.password⟩ ou
      ∈ s'.orgUnits := by
    rw [hs']
    apply mem_updateFirst_of_unique _ _ _ _ hou hmd
    intro y hy hmy
    simp only [matchesDivision, Bool.and_eq_true, beq_iff_eq] at hmy
    exact nodup_map_eq_of_mem _ _ huniq.1 y ou hy hou (hmy.1.trans hn.symm)
  have hd' : ({ d with accounts := d.accounts ++ [⟨body.name, body.username, body.password⟩] }
      : Division) ∈
      (pushAccount body.division ⟨body.name, body.username, body.password⟩ ou).divisions := by
    simp only [pushAccount]
    apply mem_updateFirst_of_unique (fun d => d.name == body.division)
      (fun (d : Division) =>
        { d with accounts := d.accounts ++ [⟨body.name, body.username, body.password⟩] })
      _ _ hd (by simpa using hdn)
    intro y hy hmy
    simp only [beq_iff_eq] at hmy
    exact nodup_map_eq_of_mem _ _ (huniq.2 ou hou) y d hy hd (hmy.trans hdn.symm)
  refine addCredential_duplicate_of_mem s' user body userResult _ _
    ⟨body.name, body.username, body.password⟩ ?_ hrole hou' ?_ hd' hdn hu ?_ rfl rfl
  · rw [hs']; exact hfind
  · simpa [pushAccount] using hn
  · simp

/-- C5. A caller present in the user directory whose id is in the `users` of no
division named by the request (also when no such organisational unit or
division exists) gets `Forbidden` from `addCredential`, whatever the stored
role, and the store is unchanged. -/
theorem addCredential_not_member (s : Store) (user : Assertion) (body : AddCredentialBody)
    (userResult : User) (hfind : findOne s.users user._id = some userResult)
    (hnot : ¬ IsMember s.orgUnits user._id body.organisational_unit body.division) :
    (addCredential s (some user) body).1.isForbidden = true ∧
      (addCredential s (some user) body).2 = s := by
  have hlen := (aggregateMember_empty_iff _ _ _ _).2 hnot
  by_cases hr : (userResult.role == "normal" || userResult.role == "management"
      || userResult.role == "admin") = true
  · simp [addCredential, hfind, hr, hlen, Outcome.isForbidden]
  · simp [addCredential, hfind, hr, Outcome.isForbidden]

/-- C6. When `addCredential` succeeds, the user directory is unchanged and the
organisational units are the previous ones except that, in the first unit
matching the request and its first division of the requested name, the
accounts are the previous accounts followed by the new
`{name, username, password}`; users of every division and accounts of every
other division are unchanged. -/
theorem addCredential_success_appends (s s' : Store) (token : Option Assertion)
    (body : AddCredentialBody) (h : addCredential s token body = (.success, s')) :
    s'.users = s.users ∧
    ∃ (pre post : List OrgUnit) (ou : OrgUnit) (dpre dpost : List Division) (d : Division),
      s.orgUnits = pre ++ ou :: post ∧
      (∀ o ∈ pre, ¬ (o.name = body.organisational_unit ∧
        ∃ x ∈ o.divisions, x.name = body.division)) ∧
      ou.name = body.organisational_unit ∧
      ou.divisions = dpre ++ d :: dpost ∧
      (∀ x ∈ dpre, x.name ≠ body.division) ∧
      d.name = body.division ∧
      s'.orgUnits = pre ++
        { ou with divisions := dpre ++
            { d with accounts := d.accounts ++ [⟨body.name, body.username, body.password⟩] }
              :: dpost } :: post := by
  obtain ⟨user, userResult, -, -, -, hmem, -, hs'⟩ := addCredential_success_inv s s' token body h
  obtain ⟨ou0, hou0, hn0, d0, hd0, hdn0, -⟩ := hmem
  have hmd0 : matchesDivision body.organisational_unit body.division ou0 = true := by
    simp only [matchesDivision, Bool.and_eq_true, beq_iff_eq, List.any_eq_true]
    exact ⟨hn0, d0, hd0, hdn0⟩
  obtain ⟨pre, ou, post, hl, hpre, hou⟩ :=
    exists_first_of_any (matchesDivision body.organisational_unit body.division) s.orgUnits
      ⟨ou0, hou0, hmd0⟩
  simp only [matchesDivision, Bool.and_eq_true, beq_iff_eq, List.any_eq_true] at hou
  obtain ⟨hn, d1, hd1, hdn1⟩ := hou
  obtain ⟨dpre, d, dpost, hdl, hdpre, hd⟩ :=
    exists_first_of_any (fun d : Division => d.name == body.division) ou.divisions
      ⟨d1, hd1, by simpa using hdn1⟩
  refine ⟨by rw [hs'], pre, post, ou, dpre, dpost, d, hl, ?_, hn, hdl, ?_, by simpa using hd, ?_⟩
  · intro o ho hcon
    have := hpre o ho
    simp only [matchesDivision, Bool.and_eq_false_iff, beq_eq_false_iff_ne, ne_eq,
      List.any_eq_false, beq_iff_eq] at this
    rcases this with h1 | h2
    · exact h1 hcon.1
    · obtain ⟨x, hx, hxn⟩ := hcon.2
      exact h2 x hx hxn
  · intro x hx
    simpa using hdpre x hx
  · rw [hs']
    simp only [updateOnePushAccount]
    rw [hl, updateFirst_append _ _ _ _ _ hpre (by
      simp only [matchesDivision, Bool.and_eq_true, beq_iff_eq, List.any_eq_true]
      exact ⟨hn, d1, hd1, hdn1⟩)]
    simp only [pushAccount]
    rw [hdl, updateFirst_append _ _ _ _ _ hdpre hd]

/-- C7. Whatever the caller's role and membership, a caller with a valid token
who sends an empty `new_name`, `new_username` or `new_password` gets
`EmptyField` from `updateCredential` and the store is unchanged. -/
theorem updateCredential_emptyField (s : Store) (user : Assertion) (body : UpdateCredentialBody)
    (h : body.new_name = "" ∨ body.new_username = "" ∨ body.new_password = "") :
    updateCredential s (some user) body = (.emptyField, s) := by
  have he : (body.new_name == "" || body.new_username == "" || body.new_password == "")
      = true := by
    rcases h with h | h | h <;> simp [h]
  simp only [updateCredential, he, if_true]

/-- C8. With the three new fields non-empty: a caller whose stored role is
neither `management` nor `admin` gets the role `Forbidden` reply from
`updateCredential`, member of the division or not; a caller with such a role
who is not in the `users` of the named division gets the membership
`Forbidden` reply; the store is unchanged in both cases. -/
theorem updateCredential_forbidden (s : Store) (user : Assertion) (body : UpdateCredentialBody)
    (userResult : User) (hfind : findOne s.users user._id = some userResult)
    (hname : body.new_name ≠ "") (husername : body.new_username ≠ "")
    (hpassword : body.new_password ≠ "") :
    ((userResult.role ≠ "management" ∧ userResult.role ≠ "admin") →
      updateCredential s (some user) body = (.forbiddenRole, s)) ∧
    ((userResult.role = "management" ∨ userResult.role = "admin") →
      ¬ IsMember s.orgUnits user._id body.organisational_unit body.division →
      updateCredential s (some user) body = (.forbiddenMembership, s)) := by
  have he : (body.new_name == "" || body.new_username == "" || body.new_password == "")
      = false := by
    simp [hname, husername, hpassword]
  constructor
  · rintro ⟨h1, h2⟩
    have hr : (userResult.role == "management" || userResult.role == "admin") = false := by
      simp [h1, h2]
    simp [updateCredential, he, hfind, hr]
  · intro hrole hnot
    have hr : (userResult.role == "management" || userResult.role == "admin") = true := by
      rcases hrole with h | h <;> simp [h]
    have hlen := (aggregateMember_empty_iff _ _ _ _).2 hnot
    simp only [updateCredential, he, hfind, hr, if_true, hlen]
    simp

theorem accFilter_iff (old a : Credential) : accFilter old a = true ↔ a = old := by
  cases old; cases a
  simp [accFilter, and_assoc]

theorem find?_append_first {α : Type} (p : α → Bool) (pre post : List α) (x : α)
    (hpre : ∀ y ∈ pre, p y = false) (hx : p x = true) :
    (pre ++ x :: post).find? p = some x := by
  induction pre with
  | nil => simp [hx]
  | cons y ys ih =>
    have hy : p y = false := hpre y (List.mem_cons_self _ _)
    simp [List.find?_cons, hy, ih (fun z hz => hpre z (List.mem_cons_of_mem _ hz))]

theorem map_fixed_of_map_eq {α : Type} (f : α → α) (l : List α) (h : l.map f = l) :
    ∀ x ∈ l, f x = x := by
  induction l with
  | nil => simp
  | cons a as ih =>
    simp only [List.map_cons, List.cons.injEq] at h
    intro x hx
    rcases List.mem_cons.1 hx with rfl | hx'
    · exact h.1
    · exact ih h.2 x hx'

theorem map_replace_of_not_mem (old new : Credential) (l : List Credential) (h : old ∉ l) :
    l.map (fun a => if a = old then new else a) = l := by
  induction l with
  | nil => rfl
  | cons a as ih =>
    have ha : a ≠ old := fun e => h (e ▸ List.mem_cons_self _ _)
    simp [ha, ih (fun hm => h (List.mem_cons_of_mem _ hm))]

theorem setAccounts_divisions (old new : Credential) (ou : OrgUnit) :
    (setAccounts old new ou).divisions = ou.divisions.map fun d =>
      { d with accounts := d.accounts.map fun a => if a = old then new else a } := by
  simp only [setAccounts]
  apply List.map_congr_left
  intro d _
  congr 1
  apply List.map_congr_left
  intro a _
  by_cases h : a = old
  · simp [h, (accFilter_iff old old).2 rfl]
  · have : accFilter old a = false := by
      cases hf : accFilter old a with
      | true => exact absurd ((accFilter_iff old a).1 hf) h
      | false => rfl
    simp [h, this]

theorem setAccounts_ne (old new : Credential) (ou : OrgUnit) (d : Division)
    (hd : d ∈ ou.divisions) (hold : old ∈ d.accounts) (hne : new ≠ old) :
    setAccounts old new ou ≠ ou := by
  intro h
  have hdiv := congrArg OrgUnit.divisions h
  rw [setAccounts_divisions] at hdiv
  have h1 := map_fixed_of_map_eq _ _ hdiv d hd
  have h2 := congrArg Division.accounts h1
  simp only at h2
  have h3 := map_fixed_of_map_eq _ _ h2 old hold
  simp only [if_true] at h3
  exact hne h3

theorem matchesAccount_of_mem (orgUnit division : String) (old : Credential) (ou : OrgUnit)
    (d : Division) (hn : ou.name = orgUnit) (hd : d ∈ ou.divisions) (hdn : d.name = division)
    (hold : old ∈ d.accounts) : matchesAccount orgUnit division old ou = true := by
  simp only [matchesAccount, Bool.and_eq_true, beq_iff_eq, List.any_eq_true]
  exact ⟨⟨⟨⟨hn, d, hd, hdn⟩, d, hd, old, hold, rfl⟩, d, hd, old, hold, rfl⟩, d, hd, old, hold, rfl⟩

theorem name_ne_of_nodup (pre post : List OrgUnit) (ou : OrgUnit)
    (h : ((pre ++ ou :: post).map fun o => o.name).Nodup) : ∀ o ∈ pre, o.name ≠ ou.name := by
  intro o ho heq
  rw [List.map_append, List.nodup_append] at h
  exact h.2.2 (List.mem_map_of_mem (fun o => o.name) ho)
    (by rw [heq]; simp)

theorem updateFirst_of_fixed {α : Type} (p : α → Bool) (f : α → α) (l : List α)
    (h : ∀ x, f x = x) : updateFirst p f l = l := by
  induction l with
  | nil => rfl
  | cons x xs ih =>
    by_cases hx : p x = true <;> simp [updateFirst, hx, h x, ih]

theorem setAccounts_self (old : Credential) (ou : OrgUnit) : setAccounts old old ou = ou := by
  have h := setAccounts_divisions old old ou
  have hid : (fun a : Credential => if a = old then old else a) = id := by
    funext a
    by_cases ha : a = old <;> simp [ha]
  rw [hid] at h
  simp only [List.map_id] at h
  have hdiv : (setAccounts old old ou).divisions = ou.divisions := by
    rw [h]
    exact List.map_id _
  cases ou
  simp only [setAccounts] at hdiv ⊢
  rw [hdiv]

theorem updateOneSetAccounts_same (orgUnits : List OrgUnit) (orgUnit division : String)
    (old : Credential) :
    updateOneSetAccounts orgUnits orgUnit division old old = (orgUnits, 0) := by
  simp only [updateOneSetAccounts, updateFirst_of_fixed _ _ _ (setAccounts_self old)]
  cases orgUnits.find? (matchesAccount orgUnit division old) <;> simp [setAccounts_self]

/-- C10 (amended). A caller with stored role `management` or `admin` who is a
member of the named division of a store with distinct organisational-unit
names sends non-empty new fields for which no duplicate is detected and an old
triple carried by an account of that division. When the new triple differs
from the old one the reply is success; afterwards the division sits at the same
position with the same name and users, and its accounts are the previous
sequence with the account equal to the old triple replaced in place by the new
triple, all other accounts unchanged. When the new triple equals the old one
the reply is `NothingUpdated` and the store is unchanged. -/
theorem updateCredential_replaces (s : Store) (user : Assertion) (body : UpdateCredentialBody)
    (userResult : User) (opre opost : List OrgUnit) (ou : OrgUnit)
    (dpre dpost : List Division) (d : Division)
    (hname : body.new_name ≠ "") (husername : body.new_username ≠ "")
    (hpassword : body.new_password ≠ "")
    (hfind : findOne s.users user._id = some userResult)
    (hrole : userResult.role = "management" ∨ userResult.role = "admin")
    (hnames : (s.orgUnits.map fun o => o.name).Nodup)
    (hou : s.orgUnits = opre ++ ou :: opost) (hn : ou.name = body.organisational_unit)
    (hd : ou.divisions = dpre ++ d :: dpost) (hdn : d.name = body.division)
    (hmem : user._id ∈ d.users)
    (hflag : updateAccountAlreadyExists
      (aggregateMember s.orgUnits user._id body.organisational_unit body.division)
      body.old_name body.old_username body.new_name body.new_username = false)
    (hold : (⟨body.old_name, body.old_username, body.old_password⟩ : Credential) ∈ d.accounts) :
    ((⟨body.new_name, body.new_username, body.new_password⟩ : Credential) ≠
      ⟨body.old_name, body.old_username, body.old_password⟩ →
    ∃ (s' : Store) (ou' : OrgUnit) (dpre' dpost' : List Division) (d' : Division),
      updateCredential s (some user) body = (.success, s') ∧
      s'.users = s.users ∧
      s'.orgUnits = opre ++ ou' :: opost ∧ ou'.name = ou.name ∧
      ou'.divisions = dpre' ++ d' :: dpost' ∧
      dpre'.length = dpre.length ∧ dpost'.length = dpost.length ∧
      d'.name = d.name ∧ d'.users = d.users ∧
      d'.accounts.length = d.accounts.length ∧
      d'.accounts = d.accounts.map (fun a =>
        if a = ⟨body.old_name, body.old_username, body.old_password⟩
        then ⟨body.new_name, body.new_username, body.new_password⟩ else a) ∧
      (∀ pre post : List Credential,
        d.accounts = pre ++ ⟨body.old_name, body.old_username, body.old_password⟩ :: post →
        (⟨body.old_name, body.old_username, body.old_password⟩ : Credential) ∉ pre →
        (⟨body.old_name, body.old_username, body.old_password⟩ : Credential) ∉ post →
        d'.accounts = pre ++ ⟨body.new_name, body.new_username, body.new_password⟩ :: post)) ∧
    ((⟨body.new_name, body.new_username, body.new_password⟩ : Credential) =
      ⟨body.old_name, body.old_username, body.old_password⟩ →
      updateCredential s (some user) body = (.nothingUpdated, s)) := by
  have hdmem : d ∈ ou.divisions := by rw [hd]; simp
  have houmem : ou ∈ s.orgUnits := by rw [hou]; simp
  have hmember : IsMember s.orgUnits user._id body.organisational_unit body.division :=
    ⟨ou, houmem, hn, d, hdmem, hdn, hmem⟩
  have hlen : ¬ (aggregateMember s.orgUnits user._id body.organisational_unit
      body.division).length ≤ 0 := fun h => (aggregateMember_empty_iff _ _ _ _).1 h hmember
  have he : (body.new_name == "" || body.new_username == "" || body.new_password == "")
      = false := by
    simp [hname, husername, hpassword]
  have hr : (userResult.role == "management" || userResult.role == "admin") = true := by
    rcases hrole with h | h <;> simp [h]
  have hpre : ∀ o ∈ opre, matchesAccount body.organisational_unit body.division
      ⟨body.old_name, body.old_username, body.old_password⟩ o = false := by
    intro o ho
    have hne := name_ne_of_nodup opre opost ou (hou ▸ hnames) o ho
    rw [hn] at hne
    simp [matchesAccount, hne]
  have hx := matchesAccount_of_mem body.organisational_unit body.division
    ⟨body.old_name, body.old_username, body.old_password⟩ ou d hn hdmem hdn hold
  refine ⟨fun hchange => ?_, fun hsame => ?_⟩
  · have hsetne := setAccounts_ne ⟨body.old_name, body.old_username, body.old_password⟩
      ⟨body.new_name, body.new_username, body.new_password⟩ ou d hdmem hold hchange
    have hcount : (updateOneSetAccounts s.orgUnits body.organisational_unit body.division
        ⟨body.old_name, body.old_username, body.old_password⟩
        ⟨body.new_name, body.new_username, body.new_password⟩).2 = 1 := by
      simp only [updateOneSetAccounts]
      rw [hou, find?_append_first _ _ _ _ hpre hx]
      simp [hsetne]
    have hstore : (updateOneSetAccounts s.orgUnits body.organisational_unit body.division
        ⟨body.old_name, body.old_username, body.old_password⟩
        ⟨body.new_name, body.new_username, body.new_password⟩).1 =
        opre ++ setAccounts ⟨body.old_name, body.old_username, body.old_password⟩
          ⟨body.new_name, body.new_username, body.new_password⟩ ou :: opost := by
      simp only [updateOneSetAccounts]
      rw [hou, updateFirst_append _ _ _ _ _ hpre hx]
    have hdivs := setAccounts_divisions ⟨body.old_name, body.old_username, body.old_password⟩
      ⟨body.new_name, body.new_username, body.new_password⟩ ou
    rw [hd, List.map_append, List.map_cons] at hdivs
    refine ⟨{ s with orgUnits :=
        (updateOneSetAccounts s.orgUnits body.organisational_unit body.division
          ⟨body.old_name, body.old_username, body.old_password⟩
          ⟨body.new_name, body.new_username, body.new_password⟩).1 },
      _, _, _, _, ?_, ?_, hstore, ?_, hdivs, ?_, ?_, rfl, rfl, ?_, rfl, ?_⟩
    · simp only [updateCredential, he, hfind, hr, if_true, hlen, if_false, hflag, hcount]
      simp
    · rfl
    · rfl
    · simp
    · simp
    · simp
    · intro pre post hacc hpre' hpost'
      simp only [hacc, List.map_append, List.map_cons, if_true]
      rw [map_replace_of_not_mem _ _ _ hpre', map_replace_of_not_mem _ _ _ hpost']
  · have hres := updateOneSetAccounts_same s.orgUnits body.organisational_unit body.division
      ⟨body.old_name, body.old_username, body.old_password⟩
    simp only [updateCredential, he, hfind, hr, if_true, hlen, if_false, hflag]
    rw [hsame, hres]
    simp

theorem mem_updateFirst {α : Type} (p : α → Bool) (f : α → α) (l : List α) (y : α)
    (h : y ∈ updateFirst p f l) : y ∈ l ∨ ∃ x ∈ l, p x = true ∧ y = f x := by
  induction l with
  | nil => simp [updateFirst] at h
  | cons a as ih =>
    by_cases ha : p a = true
    · simp only [updateFirst, ha, if_true, List.mem_cons] at h
      cases h with
      | inl e => exact Or.inr ⟨a, List.mem_cons_self _ _, ha, e⟩
      | inr hm => exact Or.inl (List.mem_cons_of_mem _ hm)
    · simp only [updateFirst, ha, Bool.false_eq_true, if_false, List.mem_cons] at h
      cases h with
      | inl e => exact Or.inl (e ▸ List.mem_cons_self _ _)
      | inr hm =>
        rcases ih hm with h' | ⟨x, hx, hpx, hxy⟩
        · exact Or.inl (List.mem_cons_of_mem _ h')
        · exact Or.inr ⟨x, List.mem_cons_of_mem _ hx, hpx, hxy⟩

theorem addCredential_store (s : Store) (token : Option Assertion) (body : AddCredentialBody) :
    (addCredential s token body).2 = s ∨
      ∃ s', addCredential s token body = (.success, s') := by
  cases token with
  | none => exact Or.inl rfl
  | some user =>
    cases hfind : findOne s.users user._id with
    | none => left; simp [addCredential, hfind]
    | some userResult =>
      simp only [addCredential, hfind]
      split
      · split
        · exact Or.inl rfl
        · split
          · exact Or.inr ⟨_, rfl⟩
          · exact Or.inl rfl
      · exact Or.inl rfl

/-- The add half of credential uniqueness: where names identify divisions,
`addCredential` keeps every division free of two accounts sharing name and
username. -/
theorem addCredential_preserves_credentialsUnique (s : Store) (token : Option Assertion)
    (body : AddCredentialBody) (hnames : UniqueNames s.orgUnits)
    (huniq : CredentialsUnique s.orgUnits) :
    CredentialsUnique (addCredential s token body).2.orgUnits := by
  rcases addCredential_store s token body with h | ⟨s', h⟩
  · rw [h]; exact huniq
  rw [h]
  obtain ⟨user, userResult, -, -, -, hmem, hflag, hs'⟩ :=
    addCredential_success_inv s s' token body h
  obtain ⟨ou0, hou0, hn0, d0, hd0, hdn0, hu0⟩ := hmem
  rw [addAccountAlreadyExists_eq, List.any_eq_false] at hflag
  have hdoc := hflag _ ((mem_aggregateMember _ _ _ _ _).2 ⟨ou0, hou0, hn0, d0, hd0, hdn0, hu0, rfl⟩)
  simp only [Bool.not_eq_true, List.any_eq_false, Bool.and_eq_true, beq_iff_eq, not_and] at hdoc
  intro ou' hou' d' hd'
  simp only [hs', updateOnePushAccount] at hou'
  rcases mem_updateFirst _ _ _ _ hou' with hin | ⟨x, hx, hpx, rfl⟩
  · exact huniq ou' hin d' hd'
  · simp only [matchesDivision, Bool.and_eq_true, beq_iff_eq] at hpx
    have hx0 : x = ou0 := nodup_map_eq_of_mem _ _ hnames.1 x ou0 hx hou0 (hpx.1.trans hn0.symm)
    subst hx0
    simp only [pushAccount] at hd'
    rcases mem_updateFirst _ _ _ _ hd' with hin | ⟨y, hy, hpy, rfl⟩
    · exact huniq x hx d' hin
    · simp only [beq_iff_eq] at hpy
      have hy0 : y = d0 := nodup_map_eq_of_mem _ _ (hnames.2 x hx) y d0 hy hd0 (hpy.trans hdn0.symm)
      subst hy0
      simp only [List.map_append, List.map_cons, List.map_nil]
      rw [List.nodup_append]
      refine ⟨huniq x hx y hy, by simp, ?_⟩
      intro k hk1 hk2
      simp only [List.mem_singleton] at hk2
      subst hk2
      obtain ⟨a, ha, hka⟩ := List.mem_map.1 hk1
      simp only [Prod.mk.injEq] at hka
      exact hdoc a ha hka.1.symm hka.2.symm

/-! ## Claims C1 to C10: evaluations on concrete stores -/

/-- C1. Credential uniqueness is not preserved: from a store with distinct
names and no accounts, two successful adds of `mail`/`a` and `mail`/`b`
followed by an update of `mail`/`a` to `mail`/`b` leave `Sales`/`East` with
two accounts sharing name and username. -/
theorem credentialsUnique_not_invariant :
    UniqueNames (salesStore [] []).orgUnits ∧
    CredentialsUnique (salesStore [] []).orgUnits ∧
    run (salesStore [] [])
      [ .add (some carlToken) addMailA,
        .add (some carlToken) addMailB,
        .update (some danaToken) (updateEast mailA ⟨"mail", "b", "p1"⟩) ]
      = salesStore [⟨"mail", "b", "p1"⟩, mailB] [] ∧
    ¬ CredentialsUnique (salesStore [⟨"mail", "b", "p1"⟩, mailB] []).orgUnits := by
  decide

/-- C2. `updateCredential` changes the accounts of a division the caller is not
a member of: `dana`, member of `Sales`/`East` only, updates `mailA` there and
the equal account of `Sales`/`West` is rewritten as well. -/
theorem updateCredential_rewrites_other_division :
    ¬ IsMember (salesStore [mailA] [mailA]).orgUnits danaToken._id "Sales" "West" ∧
    updateCredential (salesStore [mailA] [mailA]) (some danaToken)
        (updateEast mailA ⟨"mail", "a", "q"⟩)
      = (.success, salesStore [⟨"mail", "a", "q"⟩] [⟨"mail", "a", "q"⟩]) := by
  decide

/-- C3. `updateCredential` does not report `DuplicateCredential` when only the
username of the key changes: with `mailA` and `mailB` in `Sales`/`East`,
renaming `mail`/`a` to `mail`/`b` succeeds and leaves two `mail`/`b` accounts. -/
theorem updateCredential_same_name_not_detected :
    IsMember (salesStore [mailA, mailB] []).orgUnits danaToken._id "Sales" "East" ∧
    (updateEast mailA ⟨"mail", "b", "p9"⟩).old_username ≠
      (updateEast mailA ⟨"mail", "b", "p9"⟩).new_username ∧
    mailB.name = (updateEast mailA ⟨"mail", "b", "p9"⟩).new_name ∧
    mailB.username = (updateEast mailA ⟨"mail", "b", "p9"⟩).new_username ∧
    updateCredential (salesStore [mailA, mailB] []) (some danaToken)
        (updateEast mailA ⟨"mail", "b", "p9"⟩)
      = (.success, salesStore [⟨"mail", "b", "p9"⟩, mailB] []) := by
  decide

/-- C9. `updateCredential` reports success and changes the store although no
account of the target division equals the old triple: `Sales`/`East` is empty,
and the equal account of `Sales`/`West` is rewritten. -/
theorem updateCredential_no_match_in_division_updates :
    IsMember (salesStore [] [mailA]).orgUnits danaToken._id "Sales" "East" ∧
    updateAccountAlreadyExists
        (aggregateMember (salesStore [] [mailA]).orgUnits danaToken._id "Sales" "East")
        "mail" "a" "mail" "a" = false ∧
    updateCredential (salesStore [] [mailA]) (some danaToken)
        (updateEast mailA ⟨"mail", "a", "q"⟩)
      = (.success, salesStore [] [⟨"mail", "a", "q"⟩]) := by
  decide

/-- C10, as stated, fails when the new triple equals the old one: the caller
is a manager and member, the fields are non-empty, no duplicate is detected
and `mailA` is in the division, yet the reply is `NothingUpdated`. -/
theorem updateCredential_same_triple_nothingUpdated :
    findOne (salesStore [mailA] []).users danaToken._id
      = some { _id := 1, username := "dana", password := "hash1", role := "management" } ∧
    IsMember (salesStore [mailA] []).orgUnits danaToken._id "Sales" "East" ∧
    updateAccountAlreadyExists
        (aggregateMember (salesStore [mailA] []).orgUnits danaToken._id "Sales" "East")
        "mail" "a" "mail" "a" = false ∧
    updateCredential (salesStore [mailA] []) (some danaToken) (updateEast mailA mailA)
      = (.nothingUpdated, salesStore [mailA] []) ∧
    (updateCredential (salesStore [mailA] []) (some danaToken) (updateEast mailA mailA)).1
      ≠ .success := by
  decide

/-! ## Witnesses -/

/-- Witness of C4: `carl` adds `mail`/`a` again with another password, and
repeats a successful add. -/
theorem addCredential_duplicate_witness :
    addCredential (salesStore [mailA] []) (some carlToken) addMailAOther
      = (.duplicateCredential, salesStore [mailA] []) ∧
    addCredential (salesStore [mailA] []) (some carlToken) addMailA
      = (.duplicateCredential, salesStore [mailA] []) :=
  ⟨(addCredential_duplicate (salesStore [mailA] []) carlToken addMailAOther).1
      { _id := 2, username := "carl", password := "hash2", role := "normal" }
      { _id := 10, name := "Sales",
        divisions := [
          { name := "East", users := [1, 2], accounts := [mailA] },
          { name := "West", users := [3], accounts := [] } ] }
      { name := "East", users := [1, 2], accounts := [mailA] } mailA
      (by decide) (by decide) (by decide) (by decide) (by decide) (by decide) (by decide)
      (by decide) (by decide) (by decide),
   (addCredential_duplicate (salesStore [] []) carlToken addMailA).2
      (salesStore [mailA] []) (by decide) (by decide)⟩

/-- Witness of C5: `dana` is not a member of `Sales`/`West`. -/
theorem addCredential_not_member_witness :
    (addCredential (salesStore [] []) (some danaToken) addMailAWest).1.isForbidden = true ∧
    (addCredential (salesStore [] []) (some danaToken) addMailAWest).2 = salesStore [] [] :=
  addCredential_not_member (salesStore [] []) danaToken addMailAWest
    { _id := 1, username := "dana", password := "hash1", role := "management" }
    (by decide) (by decide)

/-- Witness of C6: `carl` adds `mailB` after `mailA`. -/
theorem addCredential_success_appends_witness :
    (salesStore [mailA, mailB] []).users = (salesStore [mailA] []).users ∧
    ∃ (pre post : List OrgUnit) (ou : OrgUnit) (dpre dpost : List Division) (d : Division),
      (salesStore [mailA] []).orgUnits = pre ++ ou :: post ∧
      (∀ o ∈ pre, ¬ (o.name = addMailB.organisational_unit ∧
        ∃ x ∈ o.divisions, x.name = addMailB.division)) ∧
      ou.name = addMailB.organisational_unit ∧
      ou.divisions = dpre ++ d :: dpost ∧
      (∀ x ∈ dpre, x.name ≠ addMailB.division) ∧
      d.name = addMailB.division ∧
      (salesStore [mailA, mailB] []).orgUnits = pre ++
        { ou with divisions := dpre ++
            { d with accounts :=
                d.accounts ++ [⟨addMailB.name, addMailB.username, addMailB.password⟩] }
              :: dpost } :: post :=
  addCredential_success_appends (salesStore [mailA] []) (salesStore [mailA, mailB] [])
    (some carlToken) addMailB (by decide)

/-- Witness of C7: the normal user `carl`, not a member of `Sales`/`West`,
sends an empty new password. -/
theorem updateCredential_emptyField_witness :
    updateCredential (salesStore [] [mailA]) (some carlToken)
        (updateWest mailA ⟨"mail", "a", ""⟩)
      = (.emptyField, salesStore [] [mailA]) :=
  updateCredential_emptyField (salesStore [] [mailA]) carlToken
    (updateWest mailA ⟨"mail", "a", ""⟩) (by decide)

/-- Witness of C8: the normal user `carl`, member of `Sales`/`East`, is refused
on the role; the manager `dana`, not a member of `Sales`/`West`, is refused on
membership. -/
theorem updateCredential_forbidden_witness :
    updateCredential (salesStore [mailA] [mailA]) (some carlToken)
        (updateEast mailA ⟨"mail", "a", "q"⟩)
      = (.forbiddenRole, salesStore [mailA] [mailA]) ∧
    updateCredential (salesStore [mailA] [mailA]) (some danaToken)
        (updateWest mailA ⟨"mail", "a", "q"⟩)
      = (.forbiddenMembership, salesStore [mailA] [mailA]) :=
  ⟨(updateCredential_forbidden (salesStore [mailA] [mailA]) carlToken
      (updateEast mailA ⟨"mail", "a", "q"⟩)
      { _id := 2, username := "carl", password := "hash2", role := "normal" }
      (by decide) (by decide) (by decide) (by decide)).1 (by decide),
   (updateCredential_forbidden (salesStore [mailA] [mailA]) danaToken
      (updateWest mailA ⟨"mail", "a", "q"⟩)
      { _id := 1, username := "dana", password := "hash1", role := "management" }
      (by decide) (by decide) (by decide) (by decide)).2 (by decide) (by decide)⟩

/-- Witness of C10: `dana` changes the password of `mailA`, the second of three
accounts of `Sales`/`East`; sending `mailA` unchanged updates nothing. -/
theorem updateCredential_replaces_witness :
    (∃ (s' : Store) (ou' : OrgUnit) (dpre' dpost' : List Division) (d' : Division),
      updateCredential (salesStore [vpnA, mailA, mailB] []) (some danaToken)
        (updateEast mailA ⟨"mail", "a", "q"⟩) = (.success, s') ∧
      s'.users = (salesStore [vpnA, mailA, mailB] []).users ∧
      s'.orgUnits = [] ++ ou' :: [] ∧ ou'.name = "Sales" ∧
      ou'.divisions = dpre' ++ d' :: dpost' ∧
      dpre'.length = 0 ∧ dpost'.length = 1 ∧
      d'.name = "East" ∧ d'.users = [1, 2] ∧
      d'.accounts.length = 3 ∧
      d'.accounts = [vpnA, mailA, mailB].map (fun a =>
        if a = ⟨"mail", "a", "p1"⟩ then ⟨"mail", "a", "q"⟩ else a) ∧
      (∀ pre post : List Credential,
        [vpnA, mailA, mailB] = pre ++ ⟨"mail", "a", "p1"⟩ :: post →
        (⟨"mail", "a", "p1"⟩ : Credential) ∉ pre →
        (⟨"mail", "a", "p1"⟩ : Credential) ∉ post →
        d'.accounts = pre ++ ⟨"mail", "a", "q"⟩ :: post)) ∧
    updateCredential (salesStore [vpnA, mailA, mailB] []) (some danaToken)
        (updateEast mailA mailA) = (.nothingUpdated, salesStore [vpnA, mailA, mailB] []) :=
  ⟨(updateCredential_replaces (salesStore [vpnA, mailA, mailB] []) danaToken
      (updateEast mailA ⟨"mail", "a", "q"⟩)
      { _id := 1, username := "dana", password := "hash1", role := "management" }
      [] []
      { _id := 10, name := "Sales",
        divisions := [
          { name := "East", users := [1, 2], accounts := [vpnA, mailA, mailB] },
          { name := "West", users := [3], accounts := [] } ] }
      [] [{ name := "West", users := [3], accounts := [] }]
      { name := "East", users := [1, 2], accounts := [vpnA, mailA, mailB] }
      (by decide) (by decide) (by decide) (by decide) (by decide) (by decide) (by decide)
      (by decide) (by decide) (by decide) (by decide) (by decide) (by decide)).1 (by decide),
   (updateCredential_replaces (salesStore [vpnA, mailA, mailB] []) danaToken
      (updateEast mailA mailA)
      { _id := 1, username := "dana", password := "hash1", role := "management" }
      [] []
      { _id := 10, name := "Sales",
        divisions := [
          { name := "East", users := [1, 2], accounts := [vpnA, mailA, mailB] },
          { name := "West", users := [3], accounts := [] } ] }
      [] [{ name := "West", users := [3], accounts := [] }]
      { name := "East", users := [1, 2], accounts := [vpnA, mailA, mailB] }
      (by decide) (by decide) (by decide) (by decide) (by decide) (by decide) (by decide)
      (by decide) (by decide) (by decide) (by decide) (by decide) (by decide)).2 (by decide)⟩

/-! ## Claims C13 to C16 and C20: the gates of the admin handlers -/

theorem aggregateMember_pos_iff (orgUnits : List OrgUnit) (userId : ObjectId)
    (orgUnit division : String) :
    (aggregateMember orgUnits userId orgUnit division).length > 0 ↔
      IsMember orgUnits userId orgUnit division := by
  rw [gt_iff_lt, ← not_le, aggregateMember_empty_iff, not_not]

/-- C13. A caller whose stored role is not `admin` gets the role `Forbidden`
reply from `updateRole`, `assignDivision` and `unassignDivision`, whatever the
arguments and the memberships, and the user directory and the organisational
units are unchanged. -/
theorem admin_handlers_forbidden_role (s : Store) (user : Assertion) (adminUserResult : User)
    (hfind : findOne s.users user._id = some adminUserResult)
    (hrole : adminUserResult.role ≠ "admin") :
    (∀ body : UpdateRoleBody, updateRole s (some user) body = (.forbiddenRole, s)) ∧
    (∀ body : DivisionBody, assignDivision s (some user) body = (.forbiddenRole, s)) ∧
    (∀ body : DivisionBody, unassignDivision s (some user) body = (.forbiddenRole, s)) := by
  have hr : (adminUserResult.role == "admin") = false := by simp [hrole]
  refine ⟨fun body => ?_, fun body => ?_, fun body => ?_⟩
  · simp [updateRole, hfind, hr]
  · simp [assignDivision, hfind, hr]
  · simp [unassignDivision, hfind, hr]

/-- C14. An admin caller who is not a member of the named division gets the
membership `Forbidden` reply from `assignDivision` and `unassignDivision`,
whatever the target user and the target's membership, and the store is
unchanged. -/
theorem membership_handlers_forbidden_membership (s : Store) (user : Assertion)
    (adminUserResult : User) (orgUnit division : String)
    (hfind : findOne s.users user._id = some adminUserResult)
    (hrole : adminUserResult.role = "admin")
    (hnot : ¬ IsMember s.orgUnits user._id orgUnit division) :
    (∀ target : Option ObjectId,
      assignDivision s (some user) ⟨target, orgUnit, division⟩ = (.forbiddenMembership, s)) ∧
    (∀ target : Option ObjectId,
      unassignDivision s (some user) ⟨target, orgUnit, division⟩
        = (.forbiddenMembership, s)) := by
  have hlen := (aggregateMember_empty_iff _ _ _ _).2 hnot
  refine ⟨fun target => ?_, fun target => ?_⟩
  · simp [assignDivision, hfind, hrole, hlen]
  · simp [unassignDivision, hfind, hrole, hlen]

/-- C15. An admin caller who is a member of the named division, assigning a user
whose id is already in the `users` of that division, gets `AlreadyAssigned`
and the store is unchanged. -/
theorem assignDivision_alreadyAssigned (s : Store) (user : Assertion) (adminUserResult : User)
    (target : ObjectId) (orgUnit division : String)
    (hfind : findOne s.users user._id = some adminUserResult)
    (hrole : adminUserResult.role = "admin")
    (hadmin : IsMember s.orgUnits user._id orgUnit division)
    (htarget : IsMember s.orgUnits target orgUnit division) :
    assignDivision s (some user) ⟨some target, orgUnit, division⟩ = (.alreadyAssigned, s) := by
  have hlen : ¬ (aggregateMember s.orgUnits user._id orgUnit division).length ≤ 0 :=
    fun h => (aggregateMember_empty_iff _ _ _ _).1 h hadmin
  have hpos := (aggregateMember_pos_iff _ _ _ _).2 htarget
  simp only [assignDivision, hfind, hrole, beq_self_eq_true, if_true, hlen, if_false, hpos]

/-- C16. An admin caller who is a member of the named division, unassigning a
user whose id is in the `users` of no division of that name, gets
`NotAssigned` and the store is unchanged. -/
theorem unassignDivision_notAssigned (s : Store) (user : Assertion) (adminUserResult : User)
    (target : ObjectId) (orgUnit division : String)
    (hfind : findOne s.users user._id = some adminUserResult)
    (hrole : adminUserResult.role = "admin")
    (hadmin : IsMember s.orgUnits user._id orgUnit division)
    (htarget : ¬ IsMember s.orgUnits target orgUnit division) :
    unassignDivision s (some user) ⟨some target, orgUnit, division⟩ = (.notAssigned, s) := by
  have hlen : ¬ (aggregateMember s.orgUnits user._id orgUnit division).length ≤ 0 :=
    fun h => (aggregateMember_empty_iff _ _ _ _).1 h hadmin
  have hzero := (aggregateMember_empty_iff _ _ _ _).2 htarget
  simp only [unassignDivision, hfind, hrole, beq_self_eq_true, if_true, hlen, if_false, hzero]

/-- C20. An admin caller sending a `new_role` other than `normal`, `management`
and `admin` gets `InvalidRole` from `updateRole`; no update is issued and the
store, every stored role included, is unchanged. -/
theorem updateRole_invalidRole (s : Store) (user : Assertion) (adminUserResult : User)
    (body : UpdateRoleBody)
    (hfind : findOne s.users user._id = some adminUserResult)
    (hrole : adminUserResult.role = "admin")
    (hnew : body.new_role ≠ "normal" ∧ body.new_role ≠ "management" ∧
      body.new_role ≠ "admin") :
    updateRole s (some user) body = (.invalidRole, s) := by
  have hn : (body.new_role != "normal" && body.new_role != "management"
      && body.new_role != "admin") = true := by
    simp [hnew.1, hnew.2.1, hnew.2.2]
  simp only [updateRole, hfind, hrole, beq_self_eq_true, if_true, hn]


/-! ## Claim C17: membership without duplicates -/

theorem assignDivision_store (s : Store) (token : Option Assertion) (body : DivisionBody) :
    (assignDivision s token body).2 = s ∨
      ∃ user target, token = some user ∧ body.user_id = some target ∧
        IsMember s.orgUnits user._id body.organisational_unit body.division ∧
        ¬ IsMember s.orgUnits target body.organisational_unit body.division ∧
        assignDivision s token body = (.success, { s with orgUnits :=
          (updateOnePushUser s.orgUnits body.organisational_unit body.division target) }) := by
  cases token with
  | none => exact Or.inl rfl
  | some user =>
    cases hfind : findOne s.users user._id with
    | none => left; simp [assignDivision, hfind]
    | some adminUserResult =>
      by_cases hr : (adminUserResult.role == "admin") = true
      · by_cases hlen : (aggregateMember s.orgUnits user._id body.organisational_unit
            body.division).length ≤ 0
        · left; simp [assignDivision, hfind, hr, hlen]
        · cases htarget : body.user_id with
          | none => left; simp [assignDivision, hfind, hr, hlen, htarget]
          | some target =>
            by_cases hpos : (aggregateMember s.orgUnits target body.organisational_unit
                body.division).length > 0
            · left; simp only [assignDivision, hfind, hr, if_true, hlen, if_false, htarget, hpos]
            · right
              refine ⟨user, target, rfl, rfl, ?_, ?_, ?_⟩
              · by_contra hm
                exact hlen ((aggregateMember_empty_iff _ _ _ _).2 hm)
              · exact fun hm => hpos ((aggregateMember_pos_iff _ _ _ _).2 hm)
              · simp only [assignDivision, hfind, hr, if_true, hlen, if_false, htarget, hpos]
      · left; simp [assignDivision, hfind, hr]

theorem unassignDivision_store (s : Store) (token : Option Assertion) (body : DivisionBody) :
    (unassignDivision s token body).2 = s ∨
      ∃ user target, token = some user ∧ body.user_id = some target ∧
        IsMember s.orgUnits user._id body.organisational_unit body.division ∧
        IsMember s.orgUnits target body.organisational_unit body.division ∧
        unassignDivision s token body = (.success, { s with orgUnits :=
          (updateOnePullUser s.orgUnits body.organisational_unit body.division target) }) := by
  cases token with
  | none => exact Or.inl rfl
  | some user =>
    cases hfind : findOne s.users user._id with
    | none => left; simp [unassignDivision, hfind]
    | some adminUserResult =>
      by_cases hr : (adminUserResult.role == "admin") = true
      · by_cases hlen : (aggregateMember s.orgUnits user._id body.organisational_unit
            body.division).length ≤ 0
        · left; simp [unassignDivision, hfind, hr, hlen]
        · cases htarget : body.user_id with
          | none => left; simp [unassignDivision, hfind, hr, hlen, htarget]
          | some target =>
            by_cases hzero : (aggregateMember s.orgUnits target body.organisational_unit
                body.division).length ≤ 0
            · left
              simp only [unassignDivision, hfind, hr, if_true, hlen, if_false, htarget, hzero]
            · right
              refine ⟨user, target, rfl, rfl, ?_, ?_, ?_⟩
              · by_contra hm
                exact hlen ((aggregateMember_empty_iff _ _ _ _).2 hm)
              · by_contra hm
                exact hzero ((aggregateMember_empty_iff _ _ _ _).2 hm)
              · simp only [unassignDivision, hfind, hr, if_true, hlen, if_false, htarget, hzero]
      · left; simp [unassignDivision, hfind, hr]

theorem assignDivision_usersNodup (s : Store) (token : Option Assertion) (body : DivisionBody)
    (h : UsersNodup s.orgUnits) : UsersNodup (assignDivision s token body).2.orgUnits := by
  rcases assignDivision_store s token body with hs | ⟨user, target, -, -, -, hnot, hs⟩
  · rw [hs]; exact h
  rw [hs]
  intro ou' hou' d' hd'
  simp only [updateOnePushUser] at hou'
  rcases mem_updateFirst _ _ _ _ hou' with hin | ⟨x, hx, hpx, hxe⟩
  · exact h ou' hin d' hd'
  · subst hxe
    simp only [matchesDivision, Bool.and_eq_true, beq_iff_eq] at hpx
    simp only [pushUser] at hd'
    rcases mem_updateFirst _ _ _ _ hd' with hin | ⟨y, hy, hpy, hye⟩
    · exact h x hx d' hin
    · subst hye
      simp only [beq_iff_eq] at hpy
      have hty : target ∉ y.users := fun hm => hnot ⟨x, hx, hpx.1, y, hy, hpy, hm⟩
      simp only
      rw [List.nodup_append]
      refine ⟨h x hx y hy, by simp, ?_⟩
      intro u hu1 hu2
      simp only [List.mem_singleton] at hu2
      exact hty (hu2 ▸ hu1)

theorem unassignDivision_usersNodup (s : Store) (token : Option Assertion) (body : DivisionBody)
    (h : UsersNodup s.orgUnits) : UsersNodup (unassignDivision s token body).2.orgUnits := by
  rcases unassignDivision_store s token body with hs | ⟨user, target, -, -, -, -, hs⟩
  · rw [hs]; exact h
  rw [hs]
  intro ou' hou' d' hd'
  simp only [updateOnePullUser] at hou'
  rcases mem_updateFirst _ _ _ _ hou' with hin | ⟨x, hx, -, hxe⟩
  · exact h ou' hin d' hd'
  · subst hxe
    simp only [pullUser] at hd'
    rcases mem_updateFirst _ _ _ _ hd' with hin | ⟨y, hy, -, hye⟩
    · exact h x hx d' hin
    · subst hye
      exact (h x hx y hy).filter _

/-- C17. Membership without duplicates is an invariant: from a store in which
every division's `users` holds each id at most once, every finite sequence of
`assignDivision` and `unassignDivision` calls, by any callers with any
arguments, leads to a store with the same property. -/
theorem usersNodup_invariant (s : Store) (calls : List MembershipCall)
    (h : UsersNodup s.orgUnits) : UsersNodup (runMembership s calls).orgUnits := by
  induction calls generalizing s with
  | nil => exact h
  | cons call calls ih =>
    simp only [runMembership, List.foldl_cons]
    apply ih
    cases call with
    | assign token body => exact assignDivision_usersNodup s token body h
    | unassign token body => exact unassignDivision_usersNodup s token body h

/-! ## The listings: `$group` and the membership pipeline -/

/-- Documents of one organisational unit that pass `$match` on the user. -/
theorem aggregateUser_cons (ou : OrgUnit) (rest : List OrgUnit) (userId : ObjectId) :
    aggregateUser (ou :: rest) userId = aggregateUser [ou] userId ++ aggregateUser rest userId := by
  simp [aggregateUser, unwind, List.filter_append]

theorem mem_aggregateUser (orgUnits : List OrgUnit) (userId : ObjectId) (doc : UnwoundDoc) :
    doc ∈ aggregateUser orgUnits userId ↔
      ∃ ou ∈ orgUnits, ∃ d ∈ ou.divisions, userId ∈ d.users ∧
        doc = { _id := ou._id, name := ou.name, divisionName := d.name,
                divisionUser := userId, divisionAccounts := d.accounts } := by
  simp only [aggregateUser, List.mem_filter, mem_unwind, beq_iff_eq]
  constructor
  · rintro ⟨⟨ou, hou, d, hd, u, hu, rfl⟩, h1⟩
    simp only at h1
    subst h1
    exact ⟨ou, hou, d, hd, hu, rfl⟩
  · rintro ⟨ou, hou, d, hd, hu, rfl⟩
    exact ⟨⟨ou, hou, d, hd, userId, hu, rfl⟩, rfl⟩

theorem mem_groupInsert {β : Type} (item : UnwoundDoc → β) (doc : UnwoundDoc)
    (groups : List (Grouped β)) (g : Grouped β) (x : β)
    (hg : g ∈ groupInsert item doc groups) (hx : x ∈ g.divisions) :
    (g._id = doc._id ∧ x = item doc) ∨ ∃ g' ∈ groups, g'._id = g._id ∧ x ∈ g'.divisions := by
  induction groups with
  | nil =>
    simp only [groupInsert, List.mem_singleton] at hg
    subst hg
    simp only [List.mem_singleton] at hx
    exact Or.inl ⟨rfl, hx⟩
  | cons a as ih =>
    by_cases ha : (a._id == doc._id) = true
    · simp only [groupInsert, ha, if_true, List.mem_cons] at hg
      cases hg with
      | inl e =>
        subst e
        simp only [List.mem_append, List.mem_singleton] at hx
        cases hx with
        | inl hx' => exact Or.inr ⟨a, List.mem_cons_self _ _, rfl, hx'⟩
        | inr hx' => exact Or.inl ⟨by simpa using ha, hx'⟩
      | inr hm => exact Or.inr ⟨g, List.mem_cons_of_mem _ hm, rfl, hx⟩
    · simp only [groupInsert, ha, Bool.false_eq_true, if_false, List.mem_cons] at hg
      cases hg with
      | inl e => exact Or.inr ⟨a, List.mem_cons_self _ _, by rw [e], e ▸ hx⟩
      | inr hm =>
        rcases ih hm with h | ⟨g', hg', hid, hx'⟩
        · exact Or.inl h
        · exact Or.inr ⟨g', List.mem_cons_of_mem _ hg', hid, hx'⟩

theorem mem_foldl_groupInsert {β : Type} (item : UnwoundDoc → β) (docs : List UnwoundDoc)
    (groups : List (Grouped β)) (g : Grouped β) (x : β)
    (hg : g ∈ docs.foldl (fun groups doc => groupInsert item doc groups) groups)
    (hx : x ∈ g.divisions) :
    (∃ doc ∈ docs, g._id = doc._id ∧ x = item doc) ∨
      ∃ g' ∈ groups, g'._id = g._id ∧ x ∈ g'.divisions := by
  induction docs generalizing groups with
  | nil => exact Or.inr ⟨g, hg, rfl, hx⟩
  | cons d ds ih =>
    simp only [List.foldl_cons] at hg
    rcases ih _ hg with ⟨doc, hdoc, h1, h2⟩ | ⟨g', hg', hid, hx'⟩
    · exact Or.inl ⟨doc, List.mem_cons_of_mem _ hdoc, h1, h2⟩
    · rcases mem_groupInsert item d groups g' x hg' hx' with ⟨h1, h2⟩ | ⟨g'', hg'', hid', hx''⟩
      · exact Or.inl ⟨d, List.mem_cons_self _ _, hid ▸ h1, h2⟩
      · exact Or.inr ⟨g'', hg'', hid'.trans hid, hx''⟩

/-- Every item of a group comes from an input document with the group's id. -/
theorem mem_group {β : Type} (item : UnwoundDoc → β) (docs : List UnwoundDoc)
    (g : Grouped β) (x : β) (hg : g ∈ group item docs) (hx : x ∈ g.divisions) :
    ∃ doc ∈ docs, g._id = doc._id ∧ x = item doc := by
  rcases mem_foldl_groupInsert item docs [] g x hg hx with h | ⟨g', hg', -, -⟩
  · exact h
  · simp at hg'


theorem groupInsert_new {β : Type} (item : UnwoundDoc → β) (doc : UnwoundDoc)
    (groups : List (Grouped β)) (h : ∀ g ∈ groups, g._id ≠ doc._id) :
    groupInsert item doc groups
      = groups ++ [{ _id := doc._id, name := doc.name, divisions := [item doc] }] := by
  induction groups with
  | nil => rfl
  | cons a as ih =>
    have ha : (a._id == doc._id) = false := by simpa using h a (List.mem_cons_self _ _)
    simp only [groupInsert, ha, Bool.false_eq_true, if_false, List.cons_append,
      ih (fun g hg => h g (List.mem_cons_of_mem _ hg))]

theorem groupInsert_last {β : Type} (item : UnwoundDoc → β) (doc : UnwoundDoc)
    (groups : List (Grouped β)) (last : Grouped β) (h : ∀ g ∈ groups, g._id ≠ doc._id)
    (hlast : last._id = doc._id) :
    groupInsert item doc (groups ++ [last])
      = groups ++ [{ last with divisions := last.divisions ++ [item doc] }] := by
  induction groups with
  | nil => simp [groupInsert, hlast]
  | cons a as ih =>
    have ha : (a._id == doc._id) = false := by simpa using h a (List.mem_cons_self _ _)
    have ih' := ih (fun g hg => h g (List.mem_cons_of_mem _ hg))
    simp only [List.cons_append, groupInsert, ha, Bool.false_eq_true, if_false]
    exact congrArg (List.cons a) ih'

theorem foldl_groupInsert_last {β : Type} (item : UnwoundDoc → β) (docs : List UnwoundDoc)
    (groups : List (Grouped β)) (i : ObjectId) (n : String) (l : List β)
    (h : ∀ g ∈ groups, g._id ≠ i) (hdocs : ∀ doc ∈ docs, doc._id = i) :
    docs.foldl (fun groups doc => groupInsert item doc groups)
        (groups ++ [{ _id := i, name := n, divisions := l }])
      = groups ++ [{ _id := i, name := n, divisions := l ++ docs.map item }] := by
  induction docs generalizing l with
  | nil => simp
  | cons d ds ih =>
    have hd : d._id = i := hdocs d (List.mem_cons_self _ _)
    rw [List.foldl_cons, groupInsert_last item d groups _ (fun g hg => hd ▸ h g hg) hd.symm]
    simp only
    rw [ih _ (fun doc hdoc => hdocs doc (List.mem_cons_of_mem _ hdoc))]
    simp

theorem foldl_groupInsert_unit {β : Type} (item : UnwoundDoc → β) (docs : List UnwoundDoc)
    (groups : List (Grouped β)) (i : ObjectId) (n : String)
    (h : ∀ g ∈ groups, g._id ≠ i) (hdocs : ∀ doc ∈ docs, doc._id = i ∧ doc.name = n) :
    docs.foldl (fun groups doc => groupInsert item doc groups) groups
      = groups ++ (if docs = [] then []
          else [{ _id := i, name := n, divisions := docs.map item }]) := by
  cases docs with
  | nil => simp
  | cons d ds =>
    obtain ⟨hd, hn⟩ := hdocs d (List.mem_cons_self _ _)
    rw [List.foldl_cons, groupInsert_new item d groups (fun g hg => hd ▸ h g hg), hd, hn,
      foldl_groupInsert_last item ds groups i n _ h
        (fun doc hdoc => (hdocs doc (List.mem_cons_of_mem _ hdoc)).1)]
    simp

theorem aggregateUser_single (ou : OrgUnit) (userId : ObjectId) :
    ∀ doc ∈ aggregateUser [ou] userId, doc._id = ou._id ∧ doc.name = ou.name := by
  intro doc hdoc
  obtain ⟨ou', hou', d, -, -, rfl⟩ := (mem_aggregateUser _ _ _).1 hdoc
  simp only [List.mem_singleton] at hou'
  subst hou'
  exact ⟨rfl, rfl⟩

/-- With distinct ids, `$group` after the membership pipeline yields one group
per organisational unit that has a matching document, in stored order. -/
theorem foldl_groupInsert_aggregateUser {β : Type} (item : UnwoundDoc → β)
    (orgUnits : List OrgUnit) (userId : ObjectId) (groups : List (Grouped β))
    (hids : DistinctIds orgUnits) (h : ∀ g ∈ groups, ∀ ou ∈ orgUnits, g._id ≠ ou._id) :
    (aggregateUser orgUnits userId).foldl (fun groups doc => groupInsert item doc groups) groups
      = groups ++ orgUnits.filterMap fun ou =>
          if aggregateUser [ou] userId = [] then none
          else some { _id := ou._id, name := ou.name,
                      divisions := (aggregateUser [ou] userId).map item } := by
  induction orgUnits generalizing groups with
  | nil => simp [aggregateUser, unwind]
  | cons ou rest ih =>
    have hids' : DistinctIds rest := (List.nodup_cons.1 hids).2
    have hnot : ∀ o ∈ rest, ou._id ≠ o._id := by
      intro o ho heq
      have hm : o._id ∈ rest.map fun ou => ou._id := List.mem_map_of_mem (fun ou => ou._id) ho
      rw [← heq] at hm
      exact (List.nodup_cons.1 hids).1 hm
    rw [aggregateUser_cons, List.foldl_append,
      foldl_groupInsert_unit item _ groups ou._id ou.name
        (fun g hg => h g hg ou (List.mem_cons_self _ _)) (aggregateUser_single ou userId)]
    rw [ih _ hids']
    · by_cases he : aggregateUser [ou] userId = []
      · simp [List.filterMap_cons, he]
      · simp [List.filterMap_cons, he]
    · intro g hg o ho
      rcases List.mem_append.1 hg with hg' | hg'
      · exact h g hg' o (List.mem_cons_of_mem _ ho)
      · by_cases he : aggregateUser [ou] userId = []
        · simp [he] at hg'
        · simp only [he, if_false, List.mem_singleton] at hg'
          subst hg'
          exact hnot o ho

theorem group_aggregateUser {β : Type} (item : UnwoundDoc → β)
    (orgUnits : List OrgUnit) (userId : ObjectId) (hids : DistinctIds orgUnits) :
    group item (aggregateUser orgUnits userId)
      = orgUnits.filterMap fun ou =>
          if aggregateUser [ou] userId = [] then none
          else some { _id := ou._id, name := ou.name,
                      divisions := (aggregateUser [ou] userId).map item } := by
  have := foldl_groupInsert_aggregateUser item orgUnits userId [] hids (by simp)
  simpa [group] using this

theorem filter_beq_nodup (l : List ObjectId) (u : ObjectId) (h : l.Nodup) :
    l.filter (fun x => x == u) = if u ∈ l then [u] else [] := by
  rw [List.filter_beq]
  by_cases hu : u ∈ l
  · simp [hu, List.count_eq_one_of_mem h hu]
  · simp [hu, List.count_eq_zero_of_not_mem hu]

theorem aggregateUser_single_names (ds : List Division) (i : ObjectId) (n : String)
    (userId : ObjectId) (h : ∀ d ∈ ds, d.users.Nodup) :
    (((ds.flatMap fun d => d.users.map fun u =>
        ({ _id := i, name := n, divisionName := d.name, divisionUser := u,
           divisionAccounts := d.accounts } : UnwoundDoc)).filter
          fun doc => doc.divisionUser == userId).map fun doc => doc.divisionName)
      = (ds.filter fun d => decide (userId ∈ d.users)).map fun d => d.name := by
  induction ds with
  | nil => rfl
  | cons d ds ih =>
    have hd : d.users.Nodup := h d (List.mem_cons_self _ _)
    rw [List.flatMap_cons, List.filter_append, List.map_append,
      ih (fun x hx => h x (List.mem_cons_of_mem _ hx)), List.filter_map, List.map_map]
    have hf : ((fun doc : UnwoundDoc => doc.divisionUser == userId) ∘ fun u =>
        ({ _id := i, name := n, divisionName := d.name, divisionUser := u,
           divisionAccounts := d.accounts } : UnwoundDoc)) = fun x => x == userId := rfl
    rw [hf, filter_beq_nodup _ _ hd]
    by_cases hu : userId ∈ d.users
    · simp [hu, List.filter_cons]
    · simp [hu, List.filter_cons]

theorem aggregateUser_single_divisionNames (ou : OrgUnit) (userId : ObjectId)
    (h : ∀ d ∈ ou.divisions, d.users.Nodup) :
    (aggregateUser [ou] userId).map (fun doc => doc.divisionName)
      = (ou.divisions.filter fun d => decide (userId ∈ d.users)).map fun d => d.name := by
  have := aggregateUser_single_names ou.divisions ou._id ou.name userId h
  simpa [aggregateUser, unwind] using this

/-- With distinct ids and no duplicate membership the aggregation of the
listings is the listing in the spec's words. -/
theorem aggregateDivisionNames_eq_listMemberships (orgUnits : List OrgUnit) (userId : ObjectId)
    (hids : DistinctIds orgUnits) (husers : UsersNodup orgUnits) :
    aggregateDivisionNames orgUnits userId = listMemberships orgUnits userId := by
  rw [aggregateDivisionNames, group_aggregateUser _ _ _ hids, listMemberships]
  apply List.filterMap_congr
  intro ou hou
  have hn := aggregateUser_single_divisionNames ou userId (husers ou hou)
  simp only [← hn]
  by_cases he : aggregateUser [ou] userId = []
  · simp [he]
  · simp [he]

/-- With distinct ids, the pairs (unit name, division name) of the listing are
the pairs of the divisions whose `users` holds the user. -/
theorem aggregateDivisionNames_pairs (orgUnits : List OrgUnit) (userId : ObjectId)
    (hids : DistinctIds orgUnits) (unit division : String) :
    (∃ g ∈ aggregateDivisionNames orgUnits userId, g.name = unit ∧ division ∈ g.divisions) ↔
      IsMember orgUnits userId unit division := by
  rw [aggregateDivisionNames, group_aggregateUser _ _ _ hids]
  constructor
  · rintro ⟨g, hg, hname, hdiv⟩
    obtain ⟨ou, hou, hsome⟩ := List.mem_filterMap.1 hg
    by_cases he : aggregateUser [ou] userId = []
    · simp [he] at hsome
    · simp only [he, if_false, Option.some.injEq] at hsome
      subst hsome
      obtain ⟨doc, hdoc, hdn⟩ := List.mem_map.1 hdiv
      obtain ⟨ou', hou', d, hd, hu, rfl⟩ := (mem_aggregateUser _ _ _).1 hdoc
      simp only [List.mem_singleton] at hou'
      subst hou'
      exact ⟨ou', hou, hname, d, hd, hdn, hu⟩
  · rintro ⟨ou, hou, hname, d, hd, hdn, hu⟩
    have hdoc : (⟨ou._id, ou.name, d.name, userId, d.accounts⟩ : UnwoundDoc)
        ∈ aggregateUser [ou] userId :=
      (mem_aggregateUser _ _ _).2 ⟨ou, List.mem_singleton.2 rfl, d, hd, hu, rfl⟩
    have he : aggregateUser [ou] userId ≠ [] := List.ne_nil_of_mem hdoc
    refine ⟨⟨ou._id, ou.name, (aggregateUser [ou] userId).map fun doc => doc.divisionName⟩,
      List.mem_filterMap.2 ⟨ou, hou, by simp [he]⟩, hname, ?_⟩
    exact List.mem_map.2 ⟨_, hdoc, hdn⟩

/-! ## Claims C11 and C12: what the listings show -/

/-- C11. Every division returned by `viewCredentials`, with the accounts it
carries, is a division of the store whose `users` holds the caller; a caller
whose id is in no division's `users` gets an empty result whatever the valid
stored role, and no token yields a non-empty result for such a caller. -/
theorem viewCredentials_only_member_divisions (s : Store) (user : Assertion) :
    (∀ result, viewCredentials s (some user) = .ok result →
      ∀ g ∈ result, ∀ shown ∈ g.divisions,
        ∃ ou ∈ s.orgUnits, ou._id = g._id ∧ ∃ d ∈ ou.divisions,
          user._id ∈ d.users ∧ shown.name = d.name ∧ shown.accounts = d.accounts) ∧
    ((∀ ou ∈ s.orgUnits, ∀ d ∈ ou.divisions, user._id ∉ d.users) →
      (∀ result, viewCredentials s (some user) = .ok result → result = []) ∧
      (∀ userResult, findOne s.users user._id = some userResult →
        (userResult.role = "normal" ∨ userResult.role = "management" ∨
          userResult.role = "admin") →
        viewCredentials s (some user) = .ok [])) := by
  have hres : ∀ result, viewCredentials s (some user) = .ok result →
      result = aggregateDivisionAccounts s.orgUnits user._id := by
    intro result h
    simp only [viewCredentials] at h
    cases hfind : findOne s.users user._id with
    | none => simp [hfind] at h
    | some userResult =>
      simp only [hfind] at h
      split at h
      · exact (Except.ok.inj h).symm
      · simp at h
  have hempty : (∀ ou ∈ s.orgUnits, ∀ d ∈ ou.divisions, user._id ∉ d.users) →
      aggregateDivisionAccounts s.orgUnits user._id = [] := by
    intro hno
    have : aggregateUser s.orgUnits user._id = [] := by
      rw [List.eq_nil_iff_forall_not_mem]
      intro doc hdoc
      obtain ⟨ou, hou, d, hd, hu, -⟩ := (mem_aggregateUser _ _ _).1 hdoc
      exact hno ou hou d hd hu
    simp [aggregateDivisionAccounts, this, group]
  refine ⟨?_, fun hno => ⟨?_, ?_⟩⟩
  · intro result h g hg shown hshown
    rw [hres result h] at hg
    obtain ⟨doc, hdoc, hid, hitem⟩ := mem_group _ _ g shown hg hshown
    obtain ⟨ou, hou, d, hd, hu, rfl⟩ := (mem_aggregateUser _ _ _).1 hdoc
    exact ⟨ou, hou, hid.symm, d, hd, hu, by rw [hitem], by rw [hitem]⟩
  · intro result h
    rw [hres result h, hempty hno]
  · intro userResult hfind hrole
    have hr : (userResult.role == "normal" || userResult.role == "management"
        || userResult.role == "admin") = true := by
      rcases hrole with h | h | h <;> simp [h]
    simp only [viewCredentials, hfind, hr, if_true, hempty hno]

/-- C12. In a collection with distinct ids, the pairs (unit name, division
name) listed for a user by the aggregation of `getOrgUnitsAndDivisions` and
`getAllUsers` are exactly the pairs of the divisions whose `users` holds the
user; with no duplicate membership the listing is, unit by unit, the names of
those divisions in stored order; and the two handlers send that listing. -/
theorem aggregateDivisionNames_exact (s : Store) (userId : ObjectId)
    (hids : DistinctIds s.orgUnits) :
    (∀ unit division : String,
      (∃ g ∈ aggregateDivisionNames s.orgUnits userId,
        g.name = unit ∧ division ∈ g.divisions) ↔
      (∃ ou ∈ s.orgUnits, ou.name = unit ∧ ∃ d ∈ ou.divisions,
        d.name = division ∧ userId ∈ d.users)) ∧
    (UsersNodup s.orgUnits →
      aggregateDivisionNames s.orgUnits userId = listMemberships s.orgUnits userId) ∧
    (∀ (user : Assertion) (userResult : User), user._id = userId →
      findOne s.users userId = some userResult →
      getOrgUnitsAndDivisions s (some user)
        = .ok ⟨userId, userResult.username, userResult.role,
            aggregateDivisionNames s.orgUnits userId⟩) ∧
    (∀ (user : Assertion) (userResult : User),
      findOne s.users user._id = some userResult →
      (userResult.role = "normal" ∨ userResult.role = "management" ∨
        userResult.role = "admin") →
      getAllUsers s (some user)
        = .ok (s.users.map fun v =>
            ⟨v._id, v.username, v.role, aggregateDivisionNames s.orgUnits v._id⟩)) := by
  refine ⟨fun unit division => aggregateDivisionNames_pairs s.orgUnits userId hids unit division,
    fun husers => aggregateDivisionNames_eq_listMemberships s.orgUnits userId hids husers,
    ?_, ?_⟩
  · intro user userResult hid hfind
    subst hid
    simp only [getOrgUnitsAndDivisions, hfind]
  · intro user userResult hfind hrole
    have hr : (userResult.role == "normal" || userResult.role == "management"
        || userResult.role == "admin") = true := by
      rcases hrole with h | h | h <;> simp [h]
    simp only [getAllUsers, hfind, hr, if_true]

/-! ## Claim C18: a successful assignment -/

theorem mem_updateFirst_or {α : Type} (p : α → Bool) (f : α → α) (l : List α) (x : α)
    (hx : x ∈ l) : x ∈ updateFirst p f l ∨ (p x = true ∧ f x ∈ updateFirst p f l) := by
  induction l with
  | nil => simp at hx
  | cons a as ih =>
    by_cases ha : p a = true
    · simp only [updateFirst, ha, if_true, List.mem_cons]
      cases List.mem_cons.1 hx with
      | inl e => exact Or.inr ⟨e ▸ ha, Or.inl (by rw [e])⟩
      | inr hm => exact Or.inl (Or.inr hm)
    · simp only [updateFirst, ha, Bool.false_eq_true, if_false, List.mem_cons]
      cases List.mem_cons.1 hx with
      | inl e => exact Or.inl (Or.inl e)
      | inr hm =>
        rcases ih hm with h | ⟨h1, h2⟩
        · exact Or.inl (Or.inr h)
        · exact Or.inr ⟨h1, Or.inr h2⟩

theorem exists_mem_updateFirst {α : Type} (p : α → Bool) (f : α → α) (l : List α)
    (h : ∃ x ∈ l, p x = true) : ∃ x ∈ l, p x = true ∧ f x ∈ updateFirst p f l := by
  obtain ⟨pre, x, post, hl, hpre, hx⟩ := exists_first_of_any p l h
  refine ⟨x, by rw [hl]; simp, hx, ?_⟩
  rw [hl, updateFirst_append p f pre post x hpre hx]
  simp

theorem map_updateFirst {α β : Type} (p : α → Bool) (f : α → α) (g : α → β) (l : List α)
    (h : ∀ x, g (f x) = g x) : (updateFirst p f l).map g = l.map g := by
  induction l with
  | nil => rfl
  | cons a as ih =>
    by_cases ha : p a = true
    · simp [updateFirst, ha, h a]
    · simp [updateFirst, ha, ih]

theorem isMember_updateOnePushUser (orgUnits : List OrgUnit) (orgUnit division : String)
    (target userId : ObjectId) (unit div : String)
    (h : IsMember orgUnits userId unit div) :
    IsMember (updateOnePushUser orgUnits orgUnit division target) userId unit div := by
  obtain ⟨ou, hou, hn, d, hd, hdn, hu⟩ := h
  rcases mem_updateFirst_or (matchesDivision orgUnit division) (pushUser division target)
    orgUnits ou hou with h1 | ⟨-, h2⟩
  · exact ⟨ou, h1, hn, d, hd, hdn, hu⟩
  · refine ⟨_, h2, hn, ?_⟩
    simp only [pushUser]
    rcases mem_updateFirst_or (fun d => d.name == division)
      (fun (d : Division) => { d with users := d.users ++ [target] }) ou.divisions d hd
      with h3 | ⟨-, h4⟩
    · exact ⟨d, h3, hdn, hu⟩
    · exact ⟨_, h4, hdn, List.mem_append_left _ hu⟩

theorem isMember_updateOnePushUser_target (orgUnits : List OrgUnit) (orgUnit division : String)
    (target : ObjectId) (h : ∃ ou ∈ orgUnits, matchesDivision orgUnit division ou = true) :
    IsMember (updateOnePushUser orgUnits orgUnit division target) target orgUnit division := by
  obtain ⟨ou, -, hp, hmem⟩ :=
    exists_mem_updateFirst (matchesDivision orgUnit division) (pushUser division target)
      orgUnits h
  simp only [matchesDivision, Bool.and_eq_true, beq_iff_eq, List.any_eq_true] at hp
  obtain ⟨hn, d0, hd0, hdn0⟩ := hp
  obtain ⟨d, -, hdn, hdmem⟩ :=
    exists_mem_updateFirst (fun d : Division => d.name == division)
      (fun (d : Division) => { d with users := d.users ++ [target] }) ou.divisions
      ⟨d0, hd0, by simpa using hdn0⟩
  refine ⟨_, hmem, hn, _, hdmem, by simpa using hdn, ?_⟩
  simp

theorem assignDivision_success_inv (s s' : Store) (token : Option Assertion)
    (body : DivisionBody) (h : assignDivision s token body = (.success, s')) :
    ∃ user adminUserResult target, token = some user ∧
      findOne s.users user._id = some adminUserResult ∧ adminUserResult.role = "admin" ∧
      body.user_id = some target ∧
      IsMember s.orgUnits user._id body.organisational_unit body.division ∧
      ¬ IsMember s.orgUnits target body.organisational_unit body.division ∧
      s' = { s with orgUnits :=
        (updateOnePushUser s.orgUnits body.organisational_unit body.division target) } := by
  cases token with
  | none => simp [assignDivision] at h
  | some user =>
    cases hfind : findOne s.users user._id with
    | none => simp [assignDivision, hfind] at h
    | some adminUserResult =>
      by_cases hr : (adminUserResult.role == "admin") = true
      · by_cases hlen : (aggregateMember s.orgUnits user._id body.organisational_unit
            body.division).length ≤ 0
        · simp [assignDivision, hfind, hr, hlen] at h
        · cases htarget : body.user_id with
          | none => simp [assignDivision, hfind, hr, hlen, htarget] at h
          | some target =>
            by_cases hpos : (aggregateMember s.orgUnits target body.organisational_unit
                body.division).length > 0
            · simp only [assignDivision, hfind, hr, if_true, hlen, if_false, htarget, hpos,
                Prod.mk.injEq] at h
              exact absurd h.1 (by decide)
            · simp only [assignDivision, hfind, hr, if_true, hlen, if_false, htarget, hpos,
                Prod.mk.injEq, true_and] at h
              refine ⟨user, adminUserResult, target, rfl, hfind, by simpa using hr, rfl, ?_, ?_,
                h.symm⟩
              · by_contra hm
                exact hlen ((aggregateMember_empty_iff _ _ _ _).2 hm)
              · exact fun hm => hpos ((aggregateMember_pos_iff _ _ _ _).2 hm)
      · simp [assignDivision, hfind, hr] at h

theorem assignDivision_of_target_member (s : Store) (user : Assertion) (adminUserResult : User)
    (target : ObjectId) (orgUnit division : String)
    (hfind : findOne s.users user._id = some adminUserResult)
    (hrole : adminUserResult.role = "admin")
    (hadmin : IsMember s.orgUnits user._id orgUnit division)
    (htarget : IsMember s.orgUnits target orgUnit division) :
    assignDivision s (some user) ⟨some target, orgUnit, division⟩ = (.alreadyAssigned, s) := by
  have hlen : ¬ (aggregateMember s.orgUnits user._id orgUnit division).length ≤ 0 :=
    fun h => (aggregateMember_empty_iff _ _ _ _).1 h hadmin
  have hpos := (aggregateMember_pos_iff _ _ _ _).2 htarget
  simp only [assignDivision, hfind, hrole, beq_self_eq_true, if_true, hlen, if_false, hpos]

/-- C18. When `assignDivision` succeeds for a target, the target's id is
afterwards in the `users` of a division with the requested names, so that, ids
being distinct, the pair appears in the target's membership listing; and the
same call repeated on the resulting store gets `AlreadyAssigned` and changes
nothing. -/
theorem assignDivision_success_records (s s' : Store) (token : Option Assertion)
    (body : DivisionBody) (target : ObjectId)
    (htarget : body.user_id = some target)
    (h : assignDivision s token body = (.success, s')) :
    IsMember s'.orgUnits target body.organisational_unit body.division ∧
    (DistinctIds s.orgUnits →
      ∃ g ∈ aggregateDivisionNames s'.orgUnits target,
        g.name = body.organisational_unit ∧ body.division ∈ g.divisions) ∧
    assignDivision s' token body = (.alreadyAssigned, s') := by
  obtain ⟨user, adminUserResult, target', htok, hfind, hrole, htarget', hadmin, -, hs'⟩ :=
    assignDivision_success_inv s s' token body h
  rw [htarget] at htarget'
  cases htarget'
  subst htok
  obtain ⟨ou, hou, hn, d, hd, hdn, hu⟩ := hadmin
  have hmatch : ∃ ou ∈ s.orgUnits,
      matchesDivision body.organisational_unit body.division ou = true := by
    refine ⟨ou, hou, ?_⟩
    simp only [matchesDivision, Bool.and_eq_true, beq_iff_eq, List.any_eq_true]
    exact ⟨hn, d, hd, hdn⟩
  have hmem : IsMember s'.orgUnits target body.organisational_unit body.division := by
    rw [hs']
    exact isMember_updateOnePushUser_target _ _ _ _ hmatch
  have hadmin' : IsMember s'.orgUnits user._id body.organisational_unit body.division := by
    rw [hs']
    exact isMember_updateOnePushUser _ _ _ _ _ _ _ ⟨ou, hou, hn, d, hd, hdn, hu⟩
  refine ⟨hmem, fun hids => ?_, ?_⟩
  · have hids' : DistinctIds s'.orgUnits := by
      rw [hs']
      simp only [DistinctIds, updateOnePushUser]
      rw [map_updateFirst _ _ _ _ (fun x => by simp [pushUser])]
      exact hids
    exact (aggregateDivisionNames_pairs _ _ hids' _ _).2 hmem
  · have hfind' : findOne s'.users user._id = some adminUserResult := by rw [hs']; exact hfind
    have := assignDivision_of_target_member s' user adminUserResult target
      body.organisational_unit body.division hfind' hrole hadmin' hmem
    cases body
    simp only at htarget
    subst htarget
    exact this

/-! ## Claim C19: a successful unassignment -/

/-- Where unit names are distinct and the named division is the first
division of its unit whose `users` holds the target, a permitted
`unassignDivision` removes the target from that division and changes nothing
else. -/
theorem unassignDivision_removes_first (s : Store) (user : Assertion) (adminUserResult : User)
    (target : ObjectId) (opre opost : List OrgUnit) (ou : OrgUnit)
    (dpre dpost : List Division) (d : Division)
    (hfind : findOne s.users user._id = some adminUserResult)
    (hrole : adminUserResult.role = "admin")
    (hadmin : IsMember s.orgUnits user._id ou.name d.name)
    (hnames : (s.orgUnits.map fun o => o.name).Nodup)
    (hou : s.orgUnits = opre ++ ou :: opost)
    (hd : ou.divisions = dpre ++ d :: dpost)
    (htarget : target ∈ d.users)
    (hfirst : ∀ x ∈ dpre, target ∉ x.users) :
    unassignDivision s (some user) ⟨some target, ou.name, d.name⟩
      = (.success, { s with orgUnits := opre ++
          { ou with divisions := dpre ++
              { d with users := d.users.filter fun u => u != target } :: dpost } :: opost }) := by
  have hdmem : d ∈ ou.divisions := by rw [hd]; simp
  have houmem : ou ∈ s.orgUnits := by rw [hou]; simp
  have hlen : ¬ (aggregateMember s.orgUnits user._id ou.name d.name).length ≤ 0 :=
    fun h => (aggregateMember_empty_iff _ _ _ _).1 h hadmin
  have hzero : ¬ (aggregateMember s.orgUnits target ou.name d.name).length ≤ 0 :=
    fun h => (aggregateMember_empty_iff _ _ _ _).1 h ⟨ou, houmem, rfl, d, hdmem, rfl, htarget⟩
  have hpre : ∀ o ∈ opre, matchesUserDivision ou.name d.name target o = false := by
    intro o ho
    have hne := name_ne_of_nodup opre opost ou (hou ▸ hnames) o ho
    simp [matchesUserDivision, hne]
  have hx : matchesUserDivision ou.name d.name target ou = true := by
    simp only [matchesUserDivision, beq_self_eq_true, Bool.true_and, Bool.and_eq_true,
      List.any_eq_true, beq_iff_eq]
    exact ⟨⟨d, hdmem, target, htarget, rfl⟩, d, hdmem, rfl⟩
  have hdpre : ∀ x ∈ dpre, (x.users.any fun u => u == target) = false := by
    intro x hx'
    rw [List.any_eq_false]
    intro u hu hbeq
    exact hfirst x hx' ((beq_iff_eq.1 hbeq) ▸ hu)
  have hdx : (d.users.any fun u => u == target) = true :=
    List.any_eq_true.2 ⟨target, htarget, beq_self_eq_true target⟩
  have hstore : updateOnePullUser s.orgUnits ou.name d.name target = opre ++
      { ou with divisions := dpre ++
          { d with users := d.users.filter fun u => u != target } :: dpost } :: opost := by
    simp only [updateOnePullUser]
    rw [hou, updateFirst_append _ _ _ _ _ hpre hx]
    simp only [pullUser]
    rw [hd, updateFirst_append _ _ _ _ _ hdpre hdx]
  simp only [unassignDivision, hfind, hrole, beq_self_eq_true, if_true, hlen, if_false, hzero,
    hstore]

/-- C19. A successful `unassignDivision` can leave the target in the named
division: with `carl` in both `Sales`/`East` and `Sales`/`West`, unassigning
`carl` from `West` is answered with success, removes `carl` from `East`, and
`West` still appears in `carl`'s membership listing and credentials. -/
theorem unassignDivision_pulls_from_other_division :
    UniqueNames (membersStore [3, 2] [3, 2]).orgUnits ∧
    UsersNodup (membersStore [3, 2] [3, 2]).orgUnits ∧
    unassignDivision (membersStore [3, 2] [3, 2]) (some aliceToken) ⟨some 2, "Sales", "West"⟩
      = (.success, membersStore [3] [3, 2]) ∧
    IsMember (membersStore [3] [3, 2]).orgUnits 2 "Sales" "West" ∧
    aggregateDivisionNames (membersStore [3] [3, 2]).orgUnits 2 = [⟨10, "Sales", ["West"]⟩] ∧
    viewCredentials (membersStore [3] [3, 2]) (some carlToken)
      = .ok [⟨10, "Sales", [⟨"West", [mailB]⟩]⟩] := by
  decide

/-! ## Witnesses of C11 to C18 and C20 -/

/-- Witness of C11: `dana`, member of `Sales`/`East` only, is shown `East`
alone; `carl`, member of no division, is shown nothing. -/
theorem viewCredentials_only_member_divisions_witness :
    (∀ g ∈ [(⟨10, "Sales", [⟨"East", [mailA]⟩]⟩ : Grouped DivisionAccounts)],
      ∀ shown ∈ g.divisions,
        ∃ ou ∈ (membersStore [1] [3]).orgUnits, ou._id = g._id ∧ ∃ d ∈ ou.divisions,
          danaToken._id ∈ d.users ∧ shown.name = d.name ∧ shown.accounts = d.accounts) ∧
    viewCredentials (membersStore [1] [3]) (some carlToken) = .ok [] :=
  ⟨(viewCredentials_only_member_divisions (membersStore [1] [3]) danaToken).1
      [⟨10, "Sales", [⟨"East", [mailA]⟩]⟩] (by decide),
   ((viewCredentials_only_member_divisions (membersStore [1] [3]) carlToken).2
      (by decide)).2
      { _id := 2, username := "carl", password := "hash2", role := "normal" }
      (by decide) (by decide)⟩

/-- Witness of C12: the listing of `carl`, member of `East` and `West`. -/
theorem aggregateDivisionNames_exact_witness :
    ((∃ g ∈ aggregateDivisionNames (membersStore [1, 2] [3, 2]).orgUnits 2,
        g.name = "Sales" ∧ "West" ∈ g.divisions) ↔
      (∃ ou ∈ (membersStore [1, 2] [3, 2]).orgUnits, ou.name = "Sales" ∧
        ∃ d ∈ ou.divisions, d.name = "West" ∧ 2 ∈ d.users)) ∧
    aggregateDivisionNames (membersStore [1, 2] [3, 2]).orgUnits 2
      = listMemberships (membersStore [1, 2] [3, 2]).orgUnits 2 ∧
    getOrgUnitsAndDivisions (membersStore [1, 2] [3, 2]) (some carlToken)
      = .ok ⟨2, "carl", "normal",
          aggregateDivisionNames (membersStore [1, 2] [3, 2]).orgUnits 2⟩ ∧
    getAllUsers (membersStore [1, 2] [3, 2]) (some carlToken)
      = .ok ((membersStore [1, 2] [3, 2]).users.map fun v =>
          ⟨v._id, v.username, v.role,
            aggregateDivisionNames (membersStore [1, 2] [3, 2]).orgUnits v._id⟩) :=
  ⟨(aggregateDivisionNames_exact (membersStore [1, 2] [3, 2]) 2 (by decide)).1 "Sales" "West",
   (aggregateDivisionNames_exact (membersStore [1, 2] [3, 2]) 2 (by decide)).2.1 (by decide),
   (aggregateDivisionNames_exact (membersStore [1, 2] [3, 2]) 2 (by decide)).2.2.1 carlToken
      { _id := 2, username := "carl", password := "hash2", role := "normal" }
      (by decide) (by decide),
   (aggregateDivisionNames_exact (membersStore [1, 2] [3, 2]) 2 (by decide)).2.2.2 carlToken
      { _id := 2, username := "carl", password := "hash2", role := "normal" }
      (by decide) (by decide)⟩

/-- Witness of C13: the manager `dana`, member of `Sales`/`East`. -/
theorem admin_handlers_forbidden_role_witness :
    updateRole (membersStore [1, 2] [3]) (some danaToken) ⟨some 2, "admin"⟩
      = (.forbiddenRole, membersStore [1, 2] [3]) ∧
    assignDivision (membersStore [1, 2] [3]) (some danaToken) ⟨some 3, "Sales", "East"⟩
      = (.forbiddenRole, membersStore [1, 2] [3]) ∧
    unassignDivision (membersStore [1, 2] [3]) (some danaToken) ⟨some 2, "Sales", "East"⟩
      = (.forbiddenRole, membersStore [1, 2] [3]) :=
  ⟨(admin_handlers_forbidden_role (membersStore [1, 2] [3]) danaToken
      { _id := 1, username := "dana", password := "hash1", role := "management" }
      (by decide) (by decide)).1 ⟨some 2, "admin"⟩,
   (admin_handlers_forbidden_role (membersStore [1, 2] [3]) danaToken
      { _id := 1, username := "dana", password := "hash1", role := "management" }
      (by decide) (by decide)).2.1 ⟨some 3, "Sales", "East"⟩,
   (admin_handlers_forbidden_role (membersStore [1, 2] [3]) danaToken
      { _id := 1, username := "dana", password := "hash1", role := "management" }
      (by decide) (by decide)).2.2 ⟨some 2, "Sales", "East"⟩⟩

/-- Witness of C14: the admin `alice` is not a member of `Sales`/`East`;
`carl` is already a member there and user 7 is not. -/
theorem membership_handlers_forbidden_membership_witness :
    assignDivision (membersStore [1, 2] [3]) (some aliceToken) ⟨some 2, "Sales", "East"⟩
      = (.forbiddenMembership, membersStore [1, 2] [3]) ∧
    unassignDivision (membersStore [1, 2] [3]) (some aliceToken) ⟨some 7, "Sales", "East"⟩
      = (.forbiddenMembership, membersStore [1, 2] [3]) :=
  ⟨(membership_handlers_forbidden_membership (membersStore [1, 2] [3]) aliceToken
      { _id := 3, username := "alice", password := "hash3", role := "admin" }
      "Sales" "East" (by decide) (by decide) (by decide)).1 (some 2),
   (membership_handlers_forbidden_membership (membersStore [1, 2] [3]) aliceToken
      { _id := 3, username := "alice", password := "hash3", role := "admin" }
      "Sales" "East" (by decide) (by decide) (by decide)).2 (some 7)⟩

/-- Witness of C15: `alice` assigns `carl`, already in `Sales`/`West`. -/
theorem assignDivision_alreadyAssigned_witness :
    assignDivision (membersStore [1] [3, 2]) (some aliceToken) ⟨some 2, "Sales", "West"⟩
      = (.alreadyAssigned, membersStore [1] [3, 2]) :=
  assignDivision_alreadyAssigned (membersStore [1] [3, 2]) aliceToken
    { _id := 3, username := "alice", password := "hash3", role := "admin" }
    2 "Sales" "West" (by decide) (by decide) (by decide) (by decide)

/-- Witness of C16: `alice` unassigns `carl`, who is not in `Sales`/`West`. -/
theorem unassignDivision_notAssigned_witness :
    unassignDivision (membersStore [1, 2] [3]) (some aliceToken) ⟨some 2, "Sales", "West"⟩
      = (.notAssigned, membersStore [1, 2] [3]) :=
  unassignDivision_notAssigned (membersStore [1, 2] [3]) aliceToken
    { _id := 3, username := "alice", password := "hash3", role := "admin" }
    2 "Sales" "West" (by decide) (by decide) (by decide) (by decide)

/-- Witness of C17: `alice` assigns `carl` to `Sales`/`West` twice and
unassigns `carl` again. -/
theorem usersNodup_invariant_witness :
    UsersNodup (runMembership (membersStore [1] [3])
      [ .assign (some aliceToken) ⟨some 2, "Sales", "West"⟩,
        .assign (some aliceToken) ⟨some 2, "Sales", "West"⟩,
        .unassign (some aliceToken) ⟨some 2, "Sales", "West"⟩ ]).orgUnits :=
  usersNodup_invariant (membersStore [1] [3])
    [ .assign (some aliceToken) ⟨some 2, "Sales", "West"⟩,
      .assign (some aliceToken) ⟨some 2, "Sales", "West"⟩,
      .unassign (some aliceToken) ⟨some 2, "Sales", "West"⟩ ] (by decide)

/-- Witness of C18: `alice` assigns `carl` to `Sales`/`West`. -/
theorem assignDivision_success_records_witness :
    IsMember (membersStore [1] [3, 2]).orgUnits 2 "Sales" "West" ∧
    (∃ g ∈ aggregateDivisionNames (membersStore [1] [3, 2]).orgUnits 2,
      g.name = "Sales" ∧ "West" ∈ g.divisions) ∧
    assignDivision (membersStore [1] [3, 2]) (some aliceToken) ⟨some 2, "Sales", "West"⟩
      = (.alreadyAssigned, membersStore [1] [3, 2]) :=
  ⟨(assignDivision_success_records (membersStore [1] [3]) (membersStore [1] [3, 2])
      (some aliceToken) ⟨some 2, "Sales", "West"⟩ 2 rfl (by decide)).1,
   (assignDivision_success_records (membersStore [1] [3]) (membersStore [1] [3, 2])
      (some aliceToken) ⟨some 2, "Sales", "West"⟩ 2 rfl (by decide)).2.1 (by decide),
   (assignDivision_success_records (membersStore [1] [3]) (membersStore [1] [3, 2])
      (some aliceToken) ⟨some 2, "Sales", "West"⟩ 2 rfl (by decide)).2.2⟩

/-- Witness of C20: `alice` sends the role `superuser` for `carl`. -/
theorem updateRole_invalidRole_witness :
    updateRole (membersStore [1] [3]) (some aliceToken) ⟨some 2, "superuser"⟩
      = (.invalidRole, membersStore [1] [3]) :=
  updateRole_invalidRole (membersStore [1] [3]) aliceToken
    { _id := 3, username := "alice", password := "hash3", role := "admin" }
    ⟨some 2, "superuser"⟩ (by decide) (by decide) (by decide)

/-! ## Registration and login: the two scans -/

theorem foldl_usernameScan (env : Env) (userList : List User) (username : String)
    (init : Bool × String) :
    (userList.foldl (fun found user =>
        if env.toLowerCase user.username == env.toLowerCase username then (true, user.username)
        else found) init).1
      = (init.1 || userList.any fun u => env.toLowerCase u.username == env.toLowerCase username) := by
  induction userList generalizing init with
  | nil => simp
  | cons a as ih =>
    rw [List.foldl_cons, ih, List.any_cons]
    by_cases h : (env.toLowerCase a.username == env.toLowerCase username) = true
    · simp [h]
    · simp [h]

theorem usernameScan_found (env : Env) (userList : List User) (username : String) :
    (usernameScan env userList username).1
      = userList.any fun u => env.toLowerCase u.username == env.toLowerCase username := by
  have := foldl_usernameScan env userList username (false, "")
  simpa [usernameScan] using this

theorem usernameScan_true_iff (env : Env) (userList : List User) (username : String) :
    (usernameScan env userList username).1 = true ↔
      ∃ v ∈ userList, env.toLowerCase v.username = env.toLowerCase username := by
  rw [usernameScan_found, List.any_eq_true]
  simp

theorem foldl_loginScan_none (env : Env) (userList : List User) (username password : String)
    (init : Option Assertion) (h : ∀ v ∈ userList, ¬ Matches env username password v) :
    userList.foldl (fun userPayload user =>
        if env.toLowerCase username == env.toLowerCase user.username
            && env.compare password user.password then
          some { _id := user._id, username := user.username, role := user.role }
        else userPayload) init = init := by
  induction userList generalizing init with
  | nil => rfl
  | cons a as ih =>
    have ha : (env.toLowerCase username == env.toLowerCase a.username
        && env.compare password a.password) = false := by
      have := h a (List.mem_cons_self _ _)
      simp only [Matches, not_and, Bool.not_eq_true] at this
      by_cases e : env.toLowerCase username = env.toLowerCase a.username
      · simp [e, this e]
      · simp [e]
    rw [List.foldl_cons, ha]
    exact ih _ (fun v hv => h v (List.mem_cons_of_mem _ hv))

/-- The payload after the loop is that of the last matching user. -/
theorem loginScan_last (env : Env) (pre post : List User) (u : User)
    (username password : String) (hu : Matches env username password u)
    (hpost : ∀ v ∈ post, ¬ Matches env username password v) :
    loginScan env (pre ++ u :: post) username password
      = some { _id := u._id, username := u.username, role := u.role } := by
  have hm : (env.toLowerCase username == env.toLowerCase u.username
      && env.compare password u.password) = true := by
    simp [hu.1, hu.2]
  simp only [loginScan, List.foldl_append, List.foldl_cons, hm, if_true]
  exact foldl_loginScan_none env post username password _ hpost

theorem exists_last_of_any {α : Type} (p : α → Bool) (l : List α) (h : ∃ x ∈ l, p x = true) :
    ∃ pre x post, l = pre ++ x :: post ∧ p x = true ∧ ∀ y ∈ post, p y = false := by
  obtain ⟨x0, hx0, hp0⟩ := h
  obtain ⟨pre1, x, post1, hl, hpre, hx⟩ :=
    exists_first_of_any p l.reverse ⟨x0, List.mem_reverse.2 hx0, hp0⟩
  refine ⟨post1.reverse, x, pre1.reverse, ?_, hx, fun y hy => hpre y (List.mem_reverse.1 hy)⟩
  have := congrArg List.reverse hl
  simpa using this

theorem loginScan_none_iff (env : Env) (userList : List User) (username password : String) :
    loginScan env userList username password = none ↔
      ∀ v ∈ userList, ¬ Matches env username password v := by
  constructor
  · intro hnone v hv hm
    obtain ⟨pre, x, post, hl, hx, hpost⟩ :=
      exists_last_of_any (fun x => decide (Matches env username password x)) userList
        ⟨v, hv, by simpa using hm⟩
    have hlast := loginScan_last env pre post x username password (by simpa using hx)
      (fun y hy => by simpa using hpost y hy)
    rw [← hl, hnone] at hlast
    exact Option.noConfusion hlast
  · intro h
    exact foldl_loginScan_none env userList username password none h

/-! ## Claims C21 to C24: the user directory -/

theorem registerUser_store (env : Env) (s : Store) (body : LoginRegisterBody) (salt : String)
    (newId : ObjectId) :
    (registerUser env s body salt newId).2 = s ∨
      ((usernameScan env s.users body.username).1 = false ∧ body.username ≠ "" ∧
        registerUser env s body salt newId = (.registered, { s with users := s.users ++
          [{ _id := newId, username := body.username,
             password := env.hash body.password salt, role := "normal" }] })) := by
  by_cases hfound : (usernameScan env s.users body.username).1 = true
  · left; simp [registerUser, hfound]
  · by_cases hv : (body.username != "" && env.hash body.password salt != "") = true
    · right
      refine ⟨by simpa using hfound, ?_, ?_⟩
      · simp only [Bool.and_eq_true, bne_iff_ne, ne_eq] at hv
        exact hv.1
      · simp [registerUser, hfound, create, hv]
    · left; simp [registerUser, hfound, create, hv]

theorem registerUser_registered_inv (env : Env) (s s' : Store) (body : LoginRegisterBody)
    (salt : String) (newId : ObjectId)
    (h : registerUser env s body salt newId = (.registered, s')) :
    (usernameScan env s.users body.username).1 = false ∧ body.username ≠ "" ∧
      s' = { s with users := s.users ++
        [{ _id := newId, username := body.username,
           password := env.hash body.password salt, role := "normal" }] } := by
  by_cases hfound : (usernameScan env s.users body.username).1 = true
  · simp [registerUser, hfound] at h
  · by_cases hv : (body.username != "" && env.hash body.password salt != "") = true
    · have hv' := hv
      simp only [Bool.and_eq_true, bne_iff_ne, ne_eq] at hv'
      simp only [registerUser, hfound, Bool.false_eq_true, if_false, create, hv, if_true,
        Prod.mk.injEq, true_and] at h
      exact ⟨by simpa using hfound, hv'.1, h.symm⟩
    · simp [registerUser, hfound, create, hv] at h

theorem updateRole_store (s : Store) (token : Option Assertion) (body : UpdateRoleBody) :
    (updateRole s token body).2 = s ∨
      ((body.new_role = "normal" ∨ body.new_role = "management" ∨ body.new_role = "admin") ∧
        ∃ userId, (updateRole s token body).2
          = { s with users := updateOneSetRole s.users userId body.new_role }) := by
  cases token with
  | none => exact Or.inl rfl
  | some user =>
    cases hfind : findOne s.users user._id with
    | none => left; simp [updateRole, hfind]
    | some adminUserResult =>
      by_cases hr : (adminUserResult.role == "admin") = true
      · cases hn : (body.new_role != "normal" && body.new_role != "management"
            && body.new_role != "admin") with
        | true => left; simp only [updateRole, hfind, hr, if_true, hn]
        | false =>
          cases htarget : body.user_id with
          | none =>
            left
            simp only [updateRole, hfind, hr, if_true, hn, Bool.false_eq_true, if_false, htarget]
          | some userId =>
            right
            refine ⟨?_, userId, by
              simp only [updateRole, hfind, hr, if_true, hn, Bool.false_eq_true, if_false,
                htarget]⟩
            by_cases h1 : body.new_role = "normal"
            · exact Or.inl h1
            · by_cases h2 : body.new_role = "management"
              · exact Or.inr (Or.inl h2)
              · by_cases h3 : body.new_role = "admin"
                · exact Or.inr (Or.inr h3)
                · simp [h1, h2, h3] at hn
      · left; simp [updateRole, hfind, hr]

theorem stepDirectory_rolesValid (env : Env) (s : Store) (call : DirectoryCall)
    (h : RolesValid s.users) : RolesValid (stepDirectory env s call).users := by
  cases call with
  | register body salt newId =>
    rcases registerUser_store env s body salt newId with hs | ⟨-, -, hs⟩
    · simp only [stepDirectory, hs]; exact h
    · simp only [stepDirectory, hs]
      intro u hu
      rcases List.mem_append.1 hu with hu' | hu'
      · exact h u hu'
      · simp only [List.mem_singleton] at hu'
        subst hu'
        exact Or.inl rfl
  | updateRole token body =>
    rcases updateRole_store s token body with hs | ⟨hvalid, userId, hs⟩
    · simp only [stepDirectory, hs]; exact h
    · simp only [stepDirectory, hs]
      intro u hu
      rcases mem_updateFirst _ _ _ _ hu with hin | ⟨x, -, -, hx⟩
      · exact h u hin
      · subst hx
        exact hvalid

/-- C21. Role validity is an invariant: from a directory whose roles are all
`normal`, `management` or `admin`, every finite sequence of `registerUser` and
`updateRole` calls, by any callers with any arguments, leads to a directory
with the same property; and a successful `registerUser` adds exactly one user,
with the given username, the generated id and role `normal`. -/
theorem rolesValid_invariant (env : Env) (s : Store) :
    (∀ calls : List DirectoryCall, RolesValid s.users →
      RolesValid (runDirectory env s calls).users) ∧
    (∀ (body : LoginRegisterBody) (salt : String) (newId : ObjectId) (s' : Store),
      registerUser env s body salt newId = (.registered, s') →
      ∃ u : User, s'.users = s.users ++ [u] ∧ u.role = "normal" ∧ u._id = newId ∧
        u.username = body.username ∧ s'.orgUnits = s.orgUnits) := by
  constructor
  · intro calls
    induction calls generalizing s with
    | nil => exact fun h => h
    | cons call calls ih =>
      intro h
      simp only [runDirectory, List.foldl_cons]
      exact ih _ (stepDirectory_rolesValid env s call h)
  · intro body salt newId s' h
    obtain ⟨-, -, hs'⟩ := registerUser_registered_inv env s s' body salt newId h
    exact ⟨_, by rw [hs'], rfl, rfl, rfl, by rw [hs']⟩

/-- C22. An admin caller, member of a division or not, sending a valid
`new_role` for an existing user gets the success reply from `updateRole`;
afterwards the first user with the target id has the new role and the same
id, username and password hash, every other user and the organisational units
are unchanged. -/
theorem updateRole_sets_role (s : Store) (user : Assertion) (adminUserResult : User)
    (target : ObjectId) (newRole : String) (pre post : List User) (t : User)
    (hfind : findOne s.users user._id = some adminUserResult)
    (hrole : adminUserResult.role = "admin")
    (hnew : newRole = "normal" ∨ newRole = "management" ∨ newRole = "admin")
    (husers : s.users = pre ++ t :: post) (ht : t._id = target)
    (hpre : ∀ u ∈ pre, u._id ≠ target) :
    updateRole s (some user) ⟨some target, newRole⟩
      = (.success, { s with users := pre ++ { t with role := newRole } :: post }) := by
  have hn : (newRole != "normal" && newRole != "management" && newRole != "admin") = false := by
    rcases hnew with h | h | h <;> simp [h]
  have hstore : updateOneSetRole s.users target newRole
      = pre ++ { t with role := newRole } :: post := by
    simp only [updateOneSetRole]
    rw [husers, updateFirst_append _ _ _ _ _ (fun u hu => by simpa using hpre u hu)
      (by simpa using ht)]
  simp only [updateRole, hfind, hrole, beq_self_eq_true, if_true, hn, Bool.false_eq_true,
    if_false, hstore]

theorem stepDirectory_usernamesDistinct (env : Env) (s : Store) (call : DirectoryCall)
    (h : UsernamesDistinct env s.users) :
    UsernamesDistinct env (stepDirectory env s call).users := by
  cases call with
  | register body salt newId =>
    rcases registerUser_store env s body salt newId with hs | ⟨hscan, -, hs⟩
    · simp only [stepDirectory, hs]; exact h
    · simp only [stepDirectory, hs, UsernamesDistinct, List.map_append, List.map_cons,
        List.map_nil]
      rw [List.nodup_append]
      refine ⟨h, by simp, ?_⟩
      intro k hk1 hk2
      simp only [List.mem_singleton] at hk2
      subst hk2
      obtain ⟨v, hv, hkv⟩ := List.mem_map.1 hk1
      have : (usernameScan env s.users body.username).1 = true :=
        (usernameScan_true_iff env s.users body.username).2 ⟨v, hv, hkv⟩
      rw [hscan] at this
      exact Bool.noConfusion this
  | updateRole token body =>
    rcases updateRole_store s token body with hs | ⟨-, userId, hs⟩
    · simp only [stepDirectory, hs]; exact h
    · simp only [stepDirectory, hs, UsernamesDistinct, updateOneSetRole]
      rw [map_updateFirst (fun u => u._id == userId)
        (fun (u : User) => { u with role := body.new_role })
        (fun u => env.toLowerCase u.username) s.users (fun x => rfl)]
      exact h

/-- C23. `registerUser` replies `UsernameTaken` and leaves the store unchanged
whenever a stored username equals the given one ignoring case; hence, from a
directory with no two usernames equal ignoring case, no sequence of calls
writing the directory leads to one with two such usernames. -/
theorem registerUser_usernameTaken (env : Env) (s : Store) :
    (∀ (body : LoginRegisterBody) (salt : String) (newId : ObjectId),
      (∃ v ∈ s.users, env.toLowerCase v.username = env.toLowerCase body.username) →
      ∃ existingUsername, registerUser env s body salt newId
        = (.usernameTaken existingUsername, s)) ∧
    (∀ calls : List DirectoryCall, UsernamesDistinct env s.users →
      UsernamesDistinct env (runDirectory env s calls).users) := by
  constructor
  · intro body salt newId hex
    have hfound := (usernameScan_true_iff env s.users body.username).2 hex
    exact ⟨(usernameScan env s.users body.username).2, by
      simp only [registerUser, hfound, if_true]⟩
  · intro calls
    induction calls generalizing s with
    | nil => exact fun h => h
    | cons call calls ih =>
      intro h
      simp only [runDirectory, List.foldl_cons]
      exact ih _ (stepDirectory_usernamesDistinct env s call h)

/-- C24. `loginUser` replies `InvalidCredentials`, and so issues no token,
exactly when no stored user has both a username equal to the given one
ignoring case and a hash that verifies against the given password; in
particular when every user of that username has a hash that does not verify. -/
theorem loginUser_invalidCredentials_iff (env : Env) (s : Store) (body : LoginRegisterBody) :
    (loginUser env s body = .invalidCredentials ↔
      ¬ ∃ v ∈ s.users, env.toLowerCase body.username = env.toLowerCase v.username ∧
        env.compare body.password v.password = true) ∧
    ((∃ payload, loginUser env s body = .token payload) ↔
      ∃ v ∈ s.users, env.toLowerCase body.username = env.toLowerCase v.username ∧
        env.compare body.password v.password = true) ∧
    ((∀ v ∈ s.users, env.toLowerCase body.username = env.toLowerCase v.username →
        env.compare body.password v.password = false) →
      loginUser env s body = .invalidCredentials) := by
  have hiff : loginUser env s body = .invalidCredentials ↔
      ¬ ∃ v ∈ s.users, env.toLowerCase body.username = env.toLowerCase v.username ∧
        env.compare body.password v.password = true := by
    rw [not_exists]
    simp only [not_and]
    constructor
    · intro h v hv
      cases hscan : loginScan env s.users body.username body.password with
      | none =>
        have := (loginScan_none_iff env s.users body.username body.password).1 hscan v hv
        simpa [Matches] using this
      | some payload => simp [loginUser, hscan] at h
    · intro h
      have hnone := (loginScan_none_iff env s.users body.username body.password).2
        (fun v hv hm => h v hv hm.1 hm.2)
      simp [loginUser, hnone]
  refine ⟨hiff, ?_, ?_⟩
  · constructor
    · rintro ⟨payload, hp⟩
      by_contra hno
      rw [hiff.2 hno] at hp
      exact LoginOutcome.noConfusion hp
    · intro hex
      cases hscan : loginScan env s.users body.username body.password with
      | none =>
        have hinv : loginUser env s body = .invalidCredentials := by simp [loginUser, hscan]
        exact absurd hex (hiff.1 hinv)
      | some payload => exact ⟨payload, by simp [loginUser, hscan]⟩
  · intro h
    apply hiff.2
    rintro ⟨v, hv, h1, h2⟩
    rw [h v hv h1] at h2
    exact Bool.noConfusion h2

/-! ## Claims C27 and C30: which user a login names -/

/-- C27, as stated, fails: `Bob` and `bob` both match the login `BOB`/`pw`, the
first in scan order is `Bob` (id 1), and the token carries `bob` (id 2). -/
theorem loginUser_not_first_match :
    Matches toyEnv "BOB" "pw" { _id := 1, username := "Bob", password := "h(pw)", role := "admin" } ∧
    Matches toyEnv "BOB" "pw" { _id := 2, username := "bob", password := "h(pw)", role := "normal" } ∧
    twoBobs.users.head? = some { _id := 1, username := "Bob", password := "h(pw)", role := "admin" } ∧
    loginUser toyEnv twoBobs ⟨"BOB", "pw"⟩ = .token ⟨2, "bob", "normal"⟩ ∧
    loginUser toyEnv twoBobs ⟨"BOB", "pw"⟩ ≠ .token ⟨1, "Bob", "admin"⟩ := by
  decide

/-- C27 (amended). `loginUser` follows last-match-wins: when stored users match
the given username ignoring case with a hash that verifies against the given
password, the token carries the `_id`, username and role of the last such user
in scan order; when a single user matches, it is that user. -/
theorem loginUser_last_match (env : Env) (s : Store) (body : LoginRegisterBody)
    (pre post : List User) (u : User)
    (husers : s.users = pre ++ u :: post)
    (hu : env.toLowerCase body.username = env.toLowerCase u.username ∧
      env.compare body.password u.password = true)
    (hpost : ∀ v ∈ post, ¬ (env.toLowerCase body.username = env.toLowerCase v.username ∧
      env.compare body.password v.password = true)) :
    loginUser env s body = .token ⟨u._id, u.username, u.role⟩ := by
  have := loginScan_last env pre post u body.username body.password hu hpost
  simp only [loginUser, husers, this]

/-- C30, as stated, fails for the empty username: no stored username equals it
ignoring case and the toy hash verifies, yet `User.create` rejects the
document and `registerUser` replies with status 500. -/
theorem registerUser_empty_username_fails :
    (∀ v ∈ aliceDirectory.users, toyEnv.toLowerCase v.username ≠ toyEnv.toLowerCase "") ∧
    toyEnv.compare "pw" (toyEnv.hash "pw" "salt") = true ∧
    registerUser toyEnv aliceDirectory ⟨"", "pw"⟩ "salt" 2
      = (.storeUnavailable, aliceDirectory) := by
  decide

/-- C30 (amended). With a hash that verifies against its password, is not
empty and differs from the password, a non-empty username `u` that equals no
stored username ignoring case is registered: the directory gains one user with
the generated id, username `u` and role `normal`, whose stored password is the
hash and not the password; and a login with the same password and any
username equal to `u` ignoring case gets a token carrying that id, `u` and
`normal`. The empty username is never registered and leaves the store
unchanged. -/
theorem register_then_login (env : Env) (s : Store) (u u' p salt : String) (newId : ObjectId)
    (hverify : env.compare p (env.hash p salt) = true)
    (hhash : env.hash p salt ≠ "")
    (hplain : env.hash p salt ≠ p)
    (hu : u ≠ "")
    (hfree : ∀ v ∈ s.users, env.toLowerCase v.username ≠ env.toLowerCase u)
    (hcase : env.toLowerCase u' = env.toLowerCase u) :
    (∃ (s' : Store) (created : User),
      registerUser env s ⟨u, p⟩ salt newId = (.registered, s') ∧
      s'.users = s.users ++ [created] ∧ s'.orgUnits = s.orgUnits ∧
      created._id = newId ∧ created.username = u ∧ created.role = "normal" ∧
      created.password = env.hash p salt ∧ created.password ≠ p ∧
      loginUser env s' ⟨u', p⟩ = .token ⟨newId, u, "normal"⟩) ∧
    (∀ q : String, (registerUser env s ⟨"", q⟩ salt newId).1 ≠ .registered ∧
      (registerUser env s ⟨"", q⟩ salt newId).2 = s) := by
  refine ⟨⟨{ s with users := s.users ++
      [{ _id := newId, username := u, password := env.hash p salt, role := "normal" }] },
    { _id := newId, username := u, password := env.hash p salt, role := "normal" },
    ?_, rfl, rfl, rfl, rfl, rfl, rfl, hplain, ?_⟩, ?_⟩
  · have hfound : (usernameScan env s.users u).1 = false := by
      cases h : (usernameScan env s.users u).1 with
      | false => rfl
      | true =>
        obtain ⟨v, hv, hvu⟩ := (usernameScan_true_iff env s.users u).1 h
        exact absurd hvu (hfree v hv)
    simp [registerUser, hfound, create, hu, hhash]
  · have := loginScan_last env s.users []
      { _id := newId, username := u, password := env.hash p salt, role := "normal" } u' p
      ⟨hcase, hverify⟩ (by simp)
    simp only [loginUser, this]
  · intro q
    by_cases hfound : (usernameScan env s.users "").1 = true
    · simp [registerUser, hfound]
    · simp [registerUser, hfound, create]

/-- The condition of C30 that the hash differs from the password is needed:
with a hash that returns the password itself, which verifies, `registerUser`
stores the password as given. -/
theorem registerUser_plainEnv_stores_password :
    plainEnv.compare "pw" (plainEnv.hash "pw" "salt") = true ∧
    registerUser plainEnv aliceDirectory ⟨"Bob", "pw"⟩ "salt" 2
      = (.registered, { aliceDirectory with users := aliceDirectory.users ++
          [{ _id := 2, username := "Bob", password := "pw", role := "normal" }] }) := by
  decide

/-! ## Claims C25, C26 and C29 -/

/-- C25. The handlers read the caller's id from the token and the role from
the user directory: two tokens with the same `_id`, whatever their `role` and
`username` fields, get the same reply and the same resulting store from
`viewCredentials`, `addCredential`, `updateCredential`, `updateRole`,
`assignDivision`, `unassignDivision` and `getAllUsers`. -/
theorem handlers_ignore_token_role (s : Store) (a b : Assertion) (h : a._id = b._id) :
    viewCredentials s (some a) = viewCredentials s (some b) ∧
    (∀ body, addCredential s (some a) body = addCredential s (some b) body) ∧
    (∀ body, updateCredential s (some a) body = updateCredential s (some b) body) ∧
    (∀ body, updateRole s (some a) body = updateRole s (some b) body) ∧
    (∀ body, assignDivision s (some a) body = assignDivision s (some b) body) ∧
    (∀ body, unassignDivision s (some a) body = unassignDivision s (some b) body) ∧
    getAllUsers s (some a) = getAllUsers s (some b) := by
  refine ⟨?_, fun body => ?_, fun body => ?_, fun body => ?_, fun body => ?_, fun body => ?_, ?_⟩
  · simp only [viewCredentials, h]
  · simp only [addCredential, h]
  · simp only [updateCredential, h]
  · simp only [updateRole, h]
  · simp only [assignDivision, h]
  · simp only [unassignDivision, h]
  · simp only [getAllUsers, h]

/-- C26. The admin handlers can end in a fault: when `alice`, admin and member
of `Sales`/`West`, sends a `user_id` that does not cast to an `ObjectId`, the
store call throws and the `catch` block's chained second `send` throws in
turn; the same happens for a caller absent from the user directory and for a
token that does not verify. -/
theorem admin_handlers_fault :
    (assignDivision (membersStore [1] [3]) (some aliceToken) ⟨none, "Sales", "West"⟩).1.isFault
      = true ∧
    (unassignDivision (membersStore [1] [3]) (some aliceToken) ⟨none, "Sales", "West"⟩).1.isFault
      = true ∧
    (updateRole (membersStore [1] [3]) (some aliceToken) ⟨none, "normal"⟩).1.isFault = true ∧
    (updateRole (membersStore [1] [3]) (some ⟨7, "ghost", "admin"⟩) ⟨some 2, "normal"⟩).1.isFault
      = true ∧
    (updateRole (membersStore [1] [3]) none ⟨some 2, "normal"⟩).1.isFault = true := by
  decide

/-- Where unit names are distinct, the named division is the first of its
name in its unit and no earlier division of the unit holds the target, a
permitted assign followed by the same unassign gives back the store. -/
theorem assign_then_unassign_of_first (s : Store) (user : Assertion) (adminUserResult : User)
    (target : ObjectId) (opre opost : List OrgUnit) (ou : OrgUnit)
    (dpre dpost : List Division) (d : Division)
    (hfind : findOne s.users user._id = some adminUserResult)
    (hrole : adminUserResult.role = "admin")
    (hadmin : user._id ∈ d.users)
    (hnames : (s.orgUnits.map fun o => o.name).Nodup)
    (hou : s.orgUnits = opre ++ ou :: opost)
    (hd : ou.divisions = dpre ++ d :: dpost)
    (hdpre : ∀ x ∈ dpre, x.name ≠ d.name ∧ target ∉ x.users)
    (htarget : ¬ IsMember s.orgUnits target ou.name d.name) :
    ∃ s', assignDivision s (some user) ⟨some target, ou.name, d.name⟩ = (.success, s') ∧
      unassignDivision s' (some user) ⟨some target, ou.name, d.name⟩ = (.success, s) := by
  have hdmem : d ∈ ou.divisions := by rw [hd]; simp
  have houmem : ou ∈ s.orgUnits := by rw [hou]; simp
  have hmember : IsMember s.orgUnits user._id ou.name d.name :=
    ⟨ou, houmem, rfl, d, hdmem, rfl, hadmin⟩
  have hlen : ¬ (aggregateMember s.orgUnits user._id ou.name d.name).length ≤ 0 :=
    fun h => (aggregateMember_empty_iff _ _ _ _).1 h hmember
  have hpos : ¬ (aggregateMember s.orgUnits target ou.name d.name).length > 0 :=
    fun h => htarget ((aggregateMember_pos_iff _ _ _ _).1 h)
  have hopre : ∀ o ∈ opre, matchesDivision ou.name d.name o = false := by
    intro o ho
    have hne := name_ne_of_nodup opre opost ou (hou ▸ hnames) o ho
    simp [matchesDivision, hne]
  have hx : matchesDivision ou.name d.name ou = true := by
    simp only [matchesDivision, beq_self_eq_true, Bool.true_and, List.any_eq_true, beq_iff_eq]
    exact ⟨d, hdmem, rfl⟩
  have hpush : updateOnePushUser s.orgUnits ou.name d.name target = opre ++
      { ou with divisions := dpre ++ { d with users := d.users ++ [target] } :: dpost }
        :: opost := by
    simp only [updateOnePushUser]
    rw [hou, updateFirst_append _ _ _ _ _ hopre hx]
    simp only [pushUser]
    rw [hd, updateFirst_append _ _ _ _ _ (fun x hx' => by simpa using (hdpre x hx').1)
      (by simp)]
  refine ⟨{ s with orgUnits := opre ++
      { ou with divisions := dpre ++ { d with users := d.users ++ [target] } :: dpost }
        :: opost }, ?_, ?_⟩
  · simp only [assignDivision, hfind, hrole, beq_self_eq_true, if_true, hlen, if_false, hpos,
      hpush]
  · have htd : target ∉ d.users := fun hm => htarget ⟨ou, houmem, rfl, d, hdmem, rfl, hm⟩
    have hfilter : (d.users ++ [target]).filter (fun u => u != target) = d.users := by
      rw [List.filter_append]
      have h1 : d.users.filter (fun u => u != target) = d.users := by
        rw [List.filter_eq_self]
        intro a ha
        have : a ≠ target := fun e => htd (e ▸ ha)
        simpa using this
      simp [h1]
    have hrem := unassignDivision_removes_first
      { s with orgUnits := opre ++
        { ou with divisions := dpre ++ { d with users := d.users ++ [target] } :: dpost }
          :: opost }
      user adminUserResult target opre opost
      { ou with divisions := dpre ++ { d with users := d.users ++ [target] } :: dpost }
      dpre dpost { d with users := d.users ++ [target] }
      hfind hrole
      ⟨_, by simp, rfl, _, by simp, rfl, List.mem_append_left _ hadmin⟩
      (by
        have := hnames
        rw [hou] at this
        simpa using this)
      rfl rfl (by simp) (fun x hx' => (hdpre x hx').2)
    simp only [hfilter] at hrem
    rw [hrem]
    have hs : s = { s with orgUnits := opre ++ ou :: opost } := by
      cases s
      simp only at hou
      simp [hou]
    have houeq : ({ ou with divisions := dpre ++ d :: dpost } : OrgUnit) = ou := by
      cases ou
      simp only at hd
      simp [hd]
    rw [houeq]
    exact congrArg _ hs.symm

/-- C29. Assign followed by unassign is not the identity: with unique names,
`alice` admin and member of `Sales`/`West`, and `carl` in `Sales`/`East` but
not in `West`, both calls are answered with success and `carl` ends up in
`West` and out of `East`. -/
theorem assign_then_unassign_not_identity :
    UniqueNames (membersStore [3, 2] [3]).orgUnits ∧
    IsMember (membersStore [3, 2] [3]).orgUnits aliceToken._id "Sales" "West" ∧
    ¬ IsMember (membersStore [3, 2] [3]).orgUnits 2 "Sales" "West" ∧
    assignDivision (membersStore [3, 2] [3]) (some aliceToken) ⟨some 2, "Sales", "West"⟩
      = (.success, membersStore [3, 2] [3, 2]) ∧
    unassignDivision (membersStore [3, 2] [3, 2]) (some aliceToken) ⟨some 2, "Sales", "West"⟩
      = (.success, membersStore [3] [3, 2]) ∧
    membersStore [3] [3, 2] ≠ membersStore [3, 2] [3] := by
  decide

/-! ## Claim C28: the shape of the listings -/

theorem map_id_groupInsert {β : Type} (item : UnwoundDoc → β) (doc : UnwoundDoc)
    (groups : List (Grouped β)) :
    (groupInsert item doc groups).map (fun g => g._id)
      = if doc._id ∈ groups.map (fun g => g._id) then groups.map (fun g => g._id)
        else groups.map (fun g => g._id) ++ [doc._id] := by
  induction groups with
  | nil => simp [groupInsert]
  | cons a as ih =>
    by_cases ha : a._id = doc._id
    · simp [groupInsert, ha]
    · have ha' : ¬ doc._id = a._id := fun e => ha e.symm
      by_cases hm : doc._id ∈ as.map (fun g => g._id)
      · simp only [groupInsert, beq_iff_eq, ha, if_false, List.map_cons, ih, hm, if_true,
          List.mem_cons, or_true]
      · simp only [groupInsert, beq_iff_eq, ha, if_false, List.map_cons, ih, hm,
          List.mem_cons, ha', or_self, List.cons_append]

theorem nodup_groupInsert {β : Type} (item : UnwoundDoc → β) (doc : UnwoundDoc)
    (groups : List (Grouped β)) (h : (groups.map fun g => g._id).Nodup) :
    ((groupInsert item doc groups).map fun g => g._id).Nodup := by
  rw [map_id_groupInsert]
  by_cases hm : doc._id ∈ groups.map (fun g => g._id)
  · simp only [hm, if_true]; exact h
  · simp only [hm, if_false]
    rw [List.nodup_append]
    refine ⟨h, by simp, ?_⟩
    intro k hk1 hk2
    simp only [List.mem_singleton] at hk2
    exact hm (hk2 ▸ hk1)

theorem nonempty_groupInsert {β : Type} (item : UnwoundDoc → β) (doc : UnwoundDoc)
    (groups : List (Grouped β)) (h : ∀ g ∈ groups, g.divisions ≠ []) :
    ∀ g ∈ groupInsert item doc groups, g.divisions ≠ [] := by
  induction groups with
  | nil =>
    intro g hg
    simp only [groupInsert, List.mem_singleton] at hg
    subst hg
    simp
  | cons a as ih =>
    intro g hg
    by_cases ha : (a._id == doc._id) = true
    · simp only [groupInsert, ha, if_true, List.mem_cons] at hg
      cases hg with
      | inl e => subst e; simp
      | inr hm => exact h g (List.mem_cons_of_mem _ hm)
    · simp only [groupInsert, ha, Bool.false_eq_true, if_false, List.mem_cons] at hg
      cases hg with
      | inl e => exact e ▸ h a (List.mem_cons_self _ _)
      | inr hm => exact ih (fun x hx => h x (List.mem_cons_of_mem _ hx)) g hm

theorem group_invariants {β : Type} (item : UnwoundDoc → β) (docs : List UnwoundDoc)
    (groups : List (Grouped β)) (h1 : (groups.map fun g => g._id).Nodup)
    (h2 : ∀ g ∈ groups, g.divisions ≠ []) :
    ((docs.foldl (fun groups doc => groupInsert item doc groups) groups).map
        fun g => g._id).Nodup ∧
      ∀ g ∈ docs.foldl (fun groups doc => groupInsert item doc groups) groups,
        g.divisions ≠ [] := by
  induction docs generalizing groups with
  | nil => exact ⟨h1, h2⟩
  | cons d ds ih =>
    simp only [List.foldl_cons]
    exact ih _ (nodup_groupInsert item d groups h1) (nonempty_groupInsert item d groups h2)

/-- The `$group` stage after the membership pipeline yields a well-shaped
listing, for every item pushed. -/
theorem wellGrouped_group {β : Type} (item : UnwoundDoc → β) (orgUnits : List OrgUnit)
    (userId : ObjectId) : WellGrouped orgUnits userId (group item (aggregateUser orgUnits userId)) := by
  have hinv := group_invariants item (aggregateUser orgUnits userId) [] (by simp) (by simp)
  have hfrom : ∀ g ∈ group item (aggregateUser orgUnits userId),
      ∃ ou ∈ orgUnits, ou._id = g._id ∧ ∃ d ∈ ou.divisions, userId ∈ d.users := by
    intro g hg
    have hne := hinv.2 g hg
    obtain ⟨x, hx⟩ := List.exists_mem_of_ne_nil _ hne
    obtain ⟨doc, hdoc, hid, -⟩ := mem_group item _ g x hg hx
    obtain ⟨ou, hou, d, hd, hu, rfl⟩ := (mem_aggregateUser _ _ _).1 hdoc
    exact ⟨ou, hou, hid.symm, d, hd, hu⟩
  refine ⟨hinv.1, hinv.2, hfrom, ?_⟩
  intro hids ou hou hno g hg heq
  obtain ⟨ou', hou', hid', d, hd, hu⟩ := hfrom g hg
  have : ou' = ou := List.inj_on_of_nodup_map hids hou' hou (hid'.trans heq)
  subst this
  exact hno d hd hu

/-- C28. In both shapes the listing sent for a user has at most one entry per
organisational-unit id, no entry with an empty `divisions`, and only entries
of units with a division holding the user, so that, ids being distinct, a unit
none of whose divisions holds the user does not appear: in every result of
`viewCredentials` and `getOrgUnitsAndDivisions` for the caller, and in every
profile sent by `getAllUsers` for the user of the profile. -/
theorem listings_wellGrouped (s : Store) (token : Option Assertion) :
    (∀ user result, token = some user → viewCredentials s token = .ok result →
      WellGrouped s.orgUnits user._id result) ∧
    (∀ user profile, token = some user → getOrgUnitsAndDivisions s token = .ok profile →
      WellGrouped s.orgUnits user._id profile.organisational_units) ∧
    (∀ profiles, getAllUsers s token = .ok profiles →
      ∀ profile ∈ profiles, WellGrouped s.orgUnits profile._id profile.organisational_units) := by
  refine ⟨?_, ?_, ?_⟩
  · intro user result htok h
    subst htok
    simp only [viewCredentials] at h
    cases hfind : findOne s.users user._id with
    | none => simp [hfind] at h
    | some userResult =>
      simp only [hfind] at h
      split at h
      · rw [← Except.ok.inj h]
        exact wellGrouped_group _ _ _
      · simp at h
  · intro user profile htok h
    subst htok
    simp only [getOrgUnitsAndDivisions] at h
    cases hfind : findOne s.users user._id with
    | none => simp [hfind] at h
    | some userResult =>
      simp only [hfind] at h
      rw [← Except.ok.inj h]
      exact wellGrouped_group _ _ _
  · intro profiles h profile hp
    cases token with
    | none => simp [getAllUsers] at h
    | some user =>
      simp only [getAllUsers] at h
      cases hfind : findOne s.users user._id with
      | none => simp [hfind] at h
      | some userResult =>
        simp only [hfind] at h
        split at h
        · rw [← Except.ok.inj h] at hp
          obtain ⟨v, -, rfl⟩ := List.mem_map.1 hp
          exact wellGrouped_group _ _ _
        · simp at h

/-! ## Witnesses of C21 to C25, C27, C28 and C30 -/

/-- Witness of C21: `Bob` registers, `Alice` makes him a manager and then
sends the role `root`. -/
theorem rolesValid_invariant_witness :
    RolesValid (runDirectory toyEnv aliceDirectory
      [ .register ⟨"Bob", "pw"⟩ "salt" 2,
        .updateRole (some ⟨1, "Alice", "admin"⟩) ⟨some 2, "management"⟩,
        .updateRole (some ⟨1, "Alice", "admin"⟩) ⟨some 2, "root"⟩ ]).users ∧
    ∃ u : User,
      ({ users := aliceDirectory.users ++ [⟨2, "Bob", "h(pw)", "normal"⟩], orgUnits := [] }
        : Store).users = aliceDirectory.users ++ [u] ∧
      u.role = "normal" ∧ u._id = 2 ∧ u.username = "Bob" ∧
      ({ users := aliceDirectory.users ++ [⟨2, "Bob", "h(pw)", "normal"⟩], orgUnits := [] }
        : Store).orgUnits = aliceDirectory.orgUnits :=
  ⟨(rolesValid_invariant toyEnv aliceDirectory).1
      [ .register ⟨"Bob", "pw"⟩ "salt" 2,
        .updateRole (some ⟨1, "Alice", "admin"⟩) ⟨some 2, "management"⟩,
        .updateRole (some ⟨1, "Alice", "admin"⟩) ⟨some 2, "root"⟩ ] (by decide),
   (rolesValid_invariant toyEnv aliceDirectory).2 ⟨"Bob", "pw"⟩ "salt" 2
      { users := aliceDirectory.users ++ [⟨2, "Bob", "h(pw)", "normal"⟩], orgUnits := [] }
      (by decide)⟩

/-- Witness of C22: `alice`, admin and member of no division, makes `carl` a
manager. -/
theorem updateRole_sets_role_witness :
    updateRole (membersStore [1] [2]) (some aliceToken) ⟨some 2, "management"⟩
      = (.success, { membersStore [1] [2] with users :=
          [{ _id := 1, username := "dana", password := "hash1", role := "management" }] ++
            { _id := 2, username := "carl", password := "hash2", role := "management" } ::
            [{ _id := 3, username := "alice", password := "hash3", role := "admin" }] }) :=
  updateRole_sets_role (membersStore [1] [2]) aliceToken
    { _id := 3, username := "alice", password := "hash3", role := "admin" }
    2 "management"
    [{ _id := 1, username := "dana", password := "hash1", role := "management" }]
    [{ _id := 3, username := "alice", password := "hash3", role := "admin" }]
    { _id := 2, username := "carl", password := "hash2", role := "normal" }
    (by decide) (by decide) (by decide) (by decide) (by decide) (by decide)

/-- Witness of C23: `ALICE` is taken by `Alice`; registering `Bob` and then
`BOB` keeps the usernames distinct. -/
theorem registerUser_usernameTaken_witness :
    (∃ existingUsername, registerUser toyEnv aliceDirectory ⟨"ALICE", "x"⟩ "salt" 2
      = (.usernameTaken existingUsername, aliceDirectory)) ∧
    UsernamesDistinct toyEnv (runDirectory toyEnv aliceDirectory
      [ .register ⟨"Bob", "pw"⟩ "salt" 2, .register ⟨"BOB", "pw"⟩ "salt" 3 ]).users :=
  ⟨(registerUser_usernameTaken toyEnv aliceDirectory).1 ⟨"ALICE", "x"⟩ "salt" 2
      ⟨{ _id := 1, username := "Alice", password := "h(secret)", role := "admin" },
        by decide, by decide⟩,
   (registerUser_usernameTaken toyEnv aliceDirectory).2
      [ .register ⟨"Bob", "pw"⟩ "salt" 2, .register ⟨"BOB", "pw"⟩ "salt" 3 ] (by decide)⟩

/-- Witness of C24: `Alice` exists and the password `wrong` does not verify. -/
theorem loginUser_invalidCredentials_iff_witness :
    loginUser toyEnv aliceDirectory ⟨"Alice", "wrong"⟩ = .invalidCredentials :=
  (loginUser_invalidCredentials_iff toyEnv aliceDirectory ⟨"Alice", "wrong"⟩).2.2 (by decide)

/-- Witness of C25: the token of `dana` and a token with `dana`'s id that
claims the role `admin`. -/
theorem handlers_ignore_token_role_witness :
    viewCredentials (membersStore [1, 2] [3]) (some danaToken)
      = viewCredentials (membersStore [1, 2] [3]) (some ⟨1, "mallory", "admin"⟩) ∧
    updateRole (membersStore [1, 2] [3]) (some danaToken) ⟨some 1, "admin"⟩
      = updateRole (membersStore [1, 2] [3]) (some ⟨1, "mallory", "admin"⟩) ⟨some 1, "admin"⟩ :=
  ⟨(handlers_ignore_token_role (membersStore [1, 2] [3]) danaToken ⟨1, "mallory", "admin"⟩
      (by decide)).1,
   (handlers_ignore_token_role (membersStore [1, 2] [3]) danaToken ⟨1, "mallory", "admin"⟩
      (by decide)).2.2.2.1 ⟨some 1, "admin"⟩⟩

/-- Witness of C27: of `Bob` and `bob`, the login `BOB`/`pw` names `bob`. -/
theorem loginUser_last_match_witness :
    loginUser toyEnv twoBobs ⟨"BOB", "pw"⟩ = .token ⟨2, "bob", "normal"⟩ :=
  loginUser_last_match toyEnv twoBobs ⟨"BOB", "pw"⟩
    [{ _id := 1, username := "Bob", password := "h(pw)", role := "admin" }] []
    { _id := 2, username := "bob", password := "h(pw)", role := "normal" }
    (by decide) (by decide) (by decide)

/-- Witness of C28: the credentials shown to `carl`, member of `East` and
`West`. -/
theorem listings_wellGrouped_witness :
    WellGrouped (membersStore [1, 2] [3, 2]).orgUnits carlToken._id
      [(⟨10, "Sales", [⟨"East", [mailA]⟩, ⟨"West", [mailB]⟩]⟩ : Grouped DivisionAccounts)] :=
  (listings_wellGrouped (membersStore [1, 2] [3, 2]) (some carlToken)).1 carlToken
    [⟨10, "Sales", [⟨"East", [mailA]⟩, ⟨"West", [mailB]⟩]⟩] rfl (by decide)

/-- Witness of C30: `Bob` registers with `pw` and logs in as `BOB`. -/
theorem register_then_login_witness :
    (∃ (s' : Store) (created : User),
      registerUser toyEnv aliceDirectory ⟨"Bob", "pw"⟩ "salt" 2 = (.registered, s') ∧
      s'.users = aliceDirectory.users ++ [created] ∧ s'.orgUnits = aliceDirectory.orgUnits ∧
      created._id = 2 ∧ created.username = "Bob" ∧ created.role = "normal" ∧
      created.password = toyEnv.hash "pw" "salt" ∧ created.password ≠ "pw" ∧
      loginUser toyEnv s' ⟨"BOB", "pw"⟩ = .token ⟨2, "Bob", "normal"⟩) ∧
    (∀ q : String, (registerUser toyEnv aliceDirectory ⟨"", q⟩ "salt" 2).1 ≠ .registered ∧
      (registerUser toyEnv aliceDirectory ⟨"", q⟩ "salt" 2).2 = aliceDirectory) :=
  register_then_login toyEnv aliceDirectory "Bob" "BOB" "pw" "salt" 2
    (by decide) (by decide) (by decide) (by decide) (by decide) (by decide)

/-! ## Claim C4: repeating an add where two divisions share a name -/

/-- C4, as stated, fails where two divisions of one unit share a name: `carl`,
normal user and member of the second `East` of `Sales`, adds `mail`/`a`; the
membership check reads the second `East`, the write appends to the first, and
the identical call repeated succeeds again instead of `DuplicateCredential`. -/
theorem addCredential_repeat_succeeds :
    findOne (twoEasts []).users carlToken._id
      = some { _id := 2, username := "carl", password := "hash2", role := "normal" } ∧
    IsMember (twoEasts []).orgUnits carlToken._id "Sales" "East" ∧
    addCredential (twoEasts []) (some carlToken) addMailA = (.success, twoEasts [mailA]) ∧
    addCredential (twoEasts [mailA]) (some carlToken) addMailA
      = (.success, twoEasts [mailA, mailA]) ∧
    (addCredential (twoEasts [mailA]) (some carlToken) addMailA).1 ≠ .duplicateCredential := by
  decide

end CredentialManager
